import Mathlib

/-!
# script-helper: the subtitle segmentation and timeline engine

A shallow embedding of `src/js/app.js`: the configuration of `TimestampUtils`,
`TimestampUtils.calculateNextTopicStart` and `SRTGenerator.generateComplete`,
followed by theorems about them.

JavaScript strings are modelled as `List Char`, one element per code unit, so
that `length`, `substring`, `lastIndexOf`, `trim` and `split` are list operations.
The clocks of `generateComplete` only ever hold non-negative integers (sums of the
integer configuration constants and of multiples of 60), so they are `Nat`.

The numbers of JavaScript are doubles. The functions of `TimestampUtils` are given
twice: in exact arithmetic, which is what the doubles compute on the integers below
`2 ^ 53`, and under `TimestampUtils.Float64` with the rounding of each quotient,
product and sum to the nearest double. The theorems `calculateNextTopicStart_double_eq`,
`secondsToComponents_double_eq` and `formatSimple_double_eq` relate the two.
-/

namespace ScriptHelper

/-- A JavaScript string: the list of its code units. -/
abbrev Str := List Char

/-! ## String primitives -/

/-- The code points of `WhiteSpace` and `LineTerminator`: what `String.prototype.trim`
strips and what the regular expression class `\s` matches. -/
def isWs (c : Char) : Bool :=
  c.toNat == 9 || c.toNat == 10 || c.toNat == 11 || c.toNat == 12 || c.toNat == 13 ||
  c.toNat == 32 || c.toNat == 160 || c.toNat == 5760 ||
  (8192 ≤ c.toNat && c.toNat ≤ 8202) ||
  c.toNat == 8232 || c.toNat == 8233 || c.toNat == 8239 || c.toNat == 8287 ||
  c.toNat == 12288 || c.toNat == 65279

/-- The method `String.prototype.trim`: whitespace removed from both ends. -/
def trim (s : Str) : Str :=
  ((s.dropWhile isWs).reverse.dropWhile isWs).reverse

/-- The scan behind `s.split(/\s+/)`. The flag says that the previous code unit
belonged to a separator, so that a run of whitespace separates only once. -/
def splitWsGo : Bool → Str → List Str
  | _, [] => [[]]
  | inSep, c :: cs =>
    if isWs c then
      if inSep then splitWsGo true cs else [] :: splitWsGo true cs
    else
      match splitWsGo false cs with
      | [] => [[c]]
      | p :: ps => (c :: p) :: ps

/-- The call `s.split(/\s+/)`: the pieces between the maximal runs of whitespace, an
empty piece included when the string starts or ends with whitespace (`"".split`
gives `[""]`). -/
def splitWs (s : Str) : List Str := splitWsGo false s

/-- The call `s.lastIndexOf(c)`, with `none` for the result `-1`. -/
def lastIndexOf (c : Char) : Str → Option Nat
  | [] => none
  | x :: xs =>
    match lastIndexOf c xs with
    | some i => some (i + 1)
    | none => if x = c then some 0 else none

/-- The words of a text: `text.trim().split(/\s+/).filter(w => w.length > 0)`. -/
def wordsOf (text : Str) : List Str :=
  (splitWs (trim text)).filter (fun w => decide (0 < w.length))

/-- A word: a non-empty string without whitespace. -/
def IsWord (w : Str) : Prop := w ≠ [] ∧ ∀ c ∈ w, isWs c = false

/-- The number of places where a word starts: a character that is not whitespace and
that follows whitespace. The flag says whether the start of the string counts as
following whitespace. -/
def countWords : Bool → Str → Nat
  | _, [] => 0
  | afterWs, c :: cs =>
    if isWs c then countWords true cs
    else (if afterWs then 1 else 0) + countWords false cs

/-- A buffer that is empty or ends with a whitespace character. -/
def EndsWs (b : Str) : Prop := b = [] ∨ ∃ l x, b = l ++ [x] ∧ isWs x = true

/-! ## `TimestampUtils` -/

namespace TimestampUtils

/-- Max characters per SRT block. -/
def CHARS_PER_BLOCK : Nat := 500
/-- Max words per block. -/
def WORDS_PER_BLOCK : Nat := 100
/-- Duration of a block in seconds. -/
def BLOCK_DURATION : Nat := 35
/-- Interval between blocks. -/
def BLOCK_INTERVAL : Nat := 30
/-- Interval between topics. -/
def TOPIC_INTERVAL : Nat := 60
/-- Duration for title display. -/
def TITLE_DURATION : Nat := 5

/-- The function `calculateNextTopicStart(currentEndTime)` on a non-negative integer,
in integer arithmetic: `Math.ceil(currentEndTime / 60) * 60 + TOPIC_INTERVAL`, the
ceiling of the quotient being `(currentEndTime + 59) / 60` in integer division. The
source computes in doubles (`Float64.calculateNextTopicStart`), with the same result
below `2 ^ 53`. -/
def calculateNextTopicStart (currentEndTime : Nat) : Nat :=
  let nextMinute := ((currentEndTime + 59) / 60) * 60
  nextMinute + TOPIC_INTERVAL

end TimestampUtils

/-! ## `SRTGenerator.generateComplete` -/

/-- A topic as `TextUtils.divideIntoTopics` produces it. -/
structure Topic where
  number : Nat
  title : Str
  content : Str
deriving DecidableEq

/-- One subtitle entry: the arguments of one call of
`TimestampUtils.generateSRTEntry(index, startTime, endTime, text)`. -/
structure Entry where
  index : Nat
  startTime : Nat
  endTime : Nat
  text : Str
deriving DecidableEq

/-- One element of `topicsData`. -/
structure TopicData where
  number : Nat
  title : Str
  realTime : Nat
deriving DecidableEq

namespace SRTGenerator

open TimestampUtils

/-- The mutable variables of one call of `generateComplete`. `srtContent` holds the
entries in the order in which they were appended. -/
structure Run where
  srtContent : List Entry
  globalCounter : Nat
  srtTime : Nat
  realTime : Nat
  topicsData : List TopicData
deriving DecidableEq

/-- The variables as `generateComplete` initialises them. -/
def Run.init : Run :=
  { srtContent := [], globalCounter := 1, srtTime := 0, realTime := 0, topicsData := [] }

/-- The closure `addBlock(text, duration)`. -/
def addBlock (r : Run) (text : Str) (duration : Nat) : Run :=
  let endTime := r.srtTime + duration
  { r with
    srtContent := r.srtContent ++ [⟨r.globalCounter, r.srtTime, endTime, text⟩]
    globalCounter := r.globalCounter + 1
    srtTime := r.srtTime + (duration + BLOCK_INTERVAL)
    realTime := r.realTime + duration }

/-- The variables of the segmentation loop of one topic. -/
structure Seg where
  run : Run
  currentBlock : Str
  wordsInBlock : Nat
deriving DecidableEq

/-- The body of `for (const word of words)`. -/
def segStep (st : Seg) (word : Str) : Seg :=
  if st.currentBlock.length + word.length ≤ CHARS_PER_BLOCK ∧
      st.wordsInBlock < WORDS_PER_BLOCK then
    { st with
      currentBlock := st.currentBlock ++ word ++ [' ']
      wordsInBlock := st.wordsInBlock + 1 }
  else
    match lastIndexOf '.' st.currentBlock with
    | some lastPeriod =>
      if lastPeriod + 1 ≠ st.currentBlock.length then
        let remainder := st.currentBlock.drop (lastPeriod + 1)
        let currentBlock := st.currentBlock.take (lastPeriod + 1)
        { run := addBlock st.run (trim currentBlock) BLOCK_DURATION
          currentBlock := remainder ++ word ++ [' ']
          wordsInBlock := (splitWs remainder).length + 1 }
      else
        { run := addBlock st.run (trim st.currentBlock) BLOCK_DURATION
          currentBlock := word ++ [' ']
          wordsInBlock := 1 }
    | none =>
      { run := addBlock st.run (trim st.currentBlock) BLOCK_DURATION
        currentBlock := word ++ [' ']
        wordsInBlock := 1 }

/-- The segmentation loop over all the words of a topic, from an empty buffer. -/
def segLoop (r : Run) (words : List Str) : Seg :=
  words.foldl segStep ⟨r, [], 0⟩

/-- The content part of a topic: the words, the segmentation loop and the last
block of the topic, emitted when the buffer is not blank. -/
def segment (r : Run) (content : Str) : Run :=
  let st := segLoop r (wordsOf content)
  if trim st.currentBlock ≠ [] then
    addBlock st.run (trim st.currentBlock) BLOCK_DURATION
  else st.run

/-- The text of a title block: the number in decimal, then ". ", the title and "...". -/
def titleWithDots (topic : Topic) : Str :=
  Nat.toDigits 10 topic.number ++ ['.', ' '] ++ topic.title ++ ['.', '.', '.']

/-- The blocks of one topic: the title block when `includeTitles` is set, then the
content blocks. -/
def topicBlocks (includeTitles : Bool) (r : Run) (topic : Topic) : Run :=
  let r1 := if includeTitles then addBlock r (titleWithDots topic) TITLE_DURATION else r
  segment r1 topic.content

/-- The body of `topics.forEach((topic, index) => ...)`, `len` being `topics.length`. -/
def processTopic (includeTitles : Bool) (len : Nat) (r : Run) (topic : Topic)
    (index : Nat) : Run :=
  let topicStartTime := r.realTime
  let r2 := topicBlocks includeTitles r topic
  let r3 := { r2 with
    topicsData := r2.topicsData ++ [⟨topic.number, topic.title, topicStartTime⟩] }
  if index + 1 < len then
    { r3 with srtTime := calculateNextTopicStart r3.srtTime }
  else r3

/-- The iteration of `forEach` from position `index` on. -/
def topicLoop (includeTitles : Bool) (len : Nat) : Nat → List Topic → Run → Run
  | _, [], r => r
  | index, topic :: rest, r =>
    topicLoop includeTitles len (index + 1) rest
      (processTopic includeTitles len r topic index)

/-- The variables at the end of `generateComplete(topics, includeTitles)`. -/
def generateCompleteRun (topics : List Topic) (includeTitles : Bool) : Run :=
  topicLoop includeTitles topics.length 0 topics Run.init

/-- The result of `generateComplete(topics, includeTitles)`: the entries of the
subtitle track in emission order and `topicsData`. -/
def generateComplete (topics : List Topic) (includeTitles : Bool) :
    List Entry × List TopicData :=
  let r := generateCompleteRun topics includeTitles
  (r.srtContent, r.topicsData)

/-- The texts of the content blocks of a topic, in emission order: the texts of the
entries that `segment` appends to a run that has none. -/
def contentBlocks (content : Str) : List Str :=
  (segment Run.init content).srtContent.map Entry.text

/-! ## Definitions used to state the properties -/

/-- A list of `addBlock` calls, each given by its text and its duration, run in order. -/
def emitAll (r : Run) (calls : List (Str × Nat)) : Run :=
  calls.foldl (fun acc c => addBlock acc c.1 c.2) r

/-- The blocks of one topic as pairs of text and display duration: the title block
with `TITLE_DURATION` when the flag is set, then every content block with
`BLOCK_DURATION`. -/
def topicEmits (includeTitles : Bool) (topic : Topic) : List (Str × Nat) :=
  (if includeTitles then [(titleWithDots topic, TITLE_DURATION)] else []) ++
    (contentBlocks topic.content).map (fun t => (t, BLOCK_DURATION))

/-- The sum of the display durations of all the blocks of the given topics. -/
def displayTime (includeTitles : Bool) (topics : List Topic) : Nat :=
  ((topics.flatMap (topicEmits includeTitles)).map Prod.snd).sum

/-- The `addBlock` calls that produced the entries of a run whose blocks are all
content blocks: the text of each entry with `BLOCK_DURATION`. -/
def contentCalls (r : Run) : List (Str × Nat) :=
  r.srtContent.map (fun e => (e.text, BLOCK_DURATION))

/-- The timeline that the real clock gives: each topic stamped with the clock value
reached before it, the clock advancing by the display time of the topic. -/
def timeline (includeTitles : Bool) : Nat → List Topic → List TopicData
  | _, [] => []
  | start, t :: ts =>
    ⟨t.number, t.title, start⟩ :: timeline includeTitles (start + displayTime includeTitles [t]) ts

/-- The buffer that holds the given words: each word followed by one space. -/
def bufferOf (words : List Str) : Str := words.flatMap (fun w => w ++ [' '])

/-- A content for which the split at the last period carries a long remainder: the
words "a.", 400 times `b` and 200 times `c`. -/
def carriedContent : Str :=
  ['a', '.', ' '] ++ List.replicate 400 'b' ++ [' '] ++ List.replicate 200 'c'

/-- A content for which the split at the last period carries a full buffer: the word
"a.b", 99 times the word "x" and the word "y". -/
def crowdedContent : Str :=
  ['a', '.', 'b', ' '] ++ (List.replicate 99 ['x', ' ']).flatten ++ ['y']

/-- The words joined by single spaces. -/
def joinWords (words : List Str) : Str := List.intercalate [' '] words

end SRTGenerator

/-! ## `TimestampUtils`: the formats -/

namespace TimestampUtils

/-- The decimal digits `0` to `9`, the class `\d` of a regular expression. -/
def isDigit (c : Char) : Bool := 48 ≤ c.toNat && c.toNat ≤ 57

/-- The call `num.toString()` on an integer: the decimal notation, with a minus sign
for a negative number. This is what `Number.prototype.toString` gives below `2 ^ 53` in
absolute value; see `Float64.numToString` for the numbers from there on. -/
def numToString (num : Int) : Str :=
  if num < 0 then '-' :: Nat.toDigits 10 num.natAbs else Nat.toDigits 10 num.toNat

/-- The method `padStart(size, c)`: the string is filled on the left up to `size`
characters and is left alone when it is longer. -/
def padStart (s : Str) (size : Nat) (c : Char) : Str :=
  List.replicate (size - s.length) c ++ s

/-- The function `pad(num, size)`: `num.toString().padStart(size, '0')`. -/
def pad (num : Int) (size : Nat) : Str := padStart (numToString num) size '0'

/-- The remainder `x % m` of JavaScript in exact arithmetic: `x` minus `m` times the
quotient rounded towards zero, so that the result has the sign of `x`. -/
def jsRem (x m : ℚ) : ℚ :=
  x - m * (if 0 ≤ x / m then (⌊x / m⌋ : ℚ) else (⌈x / m⌉ : ℚ))

/-- The object that `secondsToComponents` returns. -/
structure Components where
  hours : Int
  minutes : Int
  seconds : Int
  milliseconds : Int
deriving DecidableEq

/-- The function `secondsToComponents(seconds)`, in exact arithmetic on the rational
numbers. The source rounds each quotient and product to a double
(`Float64.secondsToComponents`), with the same result on the integers below
`2 ^ 53`. -/
def secondsToComponents (seconds : ℚ) : Components :=
  { hours := ⌊seconds / 3600⌋
    minutes := ⌊jsRem seconds 3600 / 60⌋
    seconds := ⌊jsRem seconds 60⌋
    milliseconds := ⌊jsRem seconds 1 * 1000⌋ }

/-- The function `formatForSRT(seconds)`, on the components in exact arithmetic. -/
def formatForSRT (seconds : ℚ) : Str :=
  let t := secondsToComponents seconds
  pad t.hours 2 ++ [':'] ++ pad t.minutes 2 ++ [':'] ++ pad t.seconds 2 ++ [','] ++
    pad t.milliseconds 3

/-- The function `formatSimple(seconds)`, on the components in exact arithmetic; see
`Float64.formatSimple` for the computation in doubles. -/
def formatSimple (seconds : ℚ) : Str :=
  let t := secondsToComponents seconds
  if t.hours > 0 then
    numToString t.hours ++ [':'] ++ pad t.minutes 2 ++ [':'] ++ pad t.seconds 2
  else
    numToString t.minutes ++ [':'] ++ pad t.seconds 2

/-- The pattern `HH:MM:SS,mmm`: twelve characters, digits but for the two colons and the
comma. -/
def matchesSRT : Str → Bool
  | [h1, h2, c1, m1, m2, c2, s1, s2, c3, k1, k2, k3] =>
    isDigit h1 && isDigit h2 && c1 == ':' && isDigit m1 && isDigit m2 && c2 == ':' &&
      isDigit s1 && isDigit s2 && c3 == ',' && isDigit k1 && isDigit k2 && isDigit k3
  | _ => false

/-- A number below 1000 written with exactly three decimal digits. -/
def threeDigits (n : Nat) : Str :=
  [Nat.digitChar (n / 100), Nat.digitChar (n / 10 % 10), Nat.digitChar (n % 10)]

/-- The remainder of the spec: `x mod m` is `x` minus `m` times the floor of `x / m`. -/
def floorMod (x m : ℚ) : ℚ := x - m * (⌊x / m⌋ : ℚ)

/-- A number below 100 written with exactly two decimal digits. -/
def twoDigits (n : Nat) : Str := [Nat.digitChar (n / 10), Nat.digitChar (n % 10)]

end TimestampUtils

/-! ## Double-precision arithmetic

The numbers of JavaScript are IEEE 754 doubles. A finite double is a rational number,
and an arithmetic operation returns the double nearest to the exact result. The
definitions below give this rounding for the numbers of normal magnitude (no overflow
and no subnormal result, which the functions modelled here cannot produce from the
inputs of the theorems). -/

/-- Rounding to the nearest integer, a tie going to the even one. -/
def roundHalfEven (y : ℚ) : ℤ :=
  if y - (⌊y⌋ : ℚ) < 1 / 2 then ⌊y⌋
  else if 1 / 2 < y - (⌊y⌋ : ℚ) then ⌊y⌋ + 1
  else if ⌊y⌋ % 2 = 0 then ⌊y⌋
  else ⌊y⌋ + 1

/-- The double nearest to `x`: with `2 ^ e ≤ |x| < 2 ^ (e + 1)` the doubles around `x`
are the multiples of `2 ^ (e - 52)`, and `x` is rounded to the nearest of them, a tie
going to the even multiple. -/
def roundDouble (x : ℚ) : ℚ :=
  if x = 0 then 0
  else
    (roundHalfEven (x / (2 : ℚ) ^ (Int.log 2 |x| - 52)) : ℚ) * (2 : ℚ) ^ (Int.log 2 |x| - 52)

/-- The quotient `x / y` of two doubles. -/
def fdiv (x y : ℚ) : ℚ := roundDouble (x / y)

/-- The product `x * y` of two doubles. -/
def fmul (x y : ℚ) : ℚ := roundDouble (x * y)

/-- The sum `x + y` of two doubles. -/
def fadd (x y : ℚ) : ℚ := roundDouble (x + y)

namespace TimestampUtils

namespace Float64

/-- The function `calculateNextTopicStart(currentEndTime)` in double arithmetic. -/
def calculateNextTopicStart (currentEndTime : ℚ) : ℚ :=
  let nextMinute := fmul (⌈fdiv currentEndTime 60⌉ : ℚ) 60
  fadd nextMinute (TOPIC_INTERVAL : ℚ)

/-- The function `secondsToComponents(seconds)` in double arithmetic. The remainder
`%` of two doubles is a double and needs no rounding, and so do `Math.floor` and
`Math.ceil`. -/
def secondsToComponents (seconds : ℚ) : Components :=
  { hours := ⌊fdiv seconds 3600⌋
    minutes := ⌊fdiv (jsRem seconds 3600) 60⌋
    seconds := ⌊jsRem seconds 60⌋
    milliseconds := ⌊fmul (jsRem seconds 1) 1000⌋ }

/-- The call `num.toString()` on an integer-valued double: the decimal notation below
`2 ^ 53`. From there on the digits that `Number.prototype.toString` chooses are not
modelled and are taken as the parameter `large`. -/
def numToString (large : Int → Str) (num : Int) : Str :=
  if num.natAbs < 2 ^ 53 then TimestampUtils.numToString num else large num

/-- The function `pad(num, size)` on a double. -/
def pad (large : Int → Str) (num : Int) (size : Nat) : Str :=
  padStart (numToString large num) size '0'

/-- The function `formatSimple(seconds)` in double arithmetic. -/
def formatSimple (large : Int → Str) (seconds : ℚ) : Str :=
  let t := secondsToComponents seconds
  if t.hours > 0 then
    numToString large t.hours ++ [':'] ++ pad large t.minutes 2 ++ [':'] ++
      pad large t.seconds 2
  else
    numToString large t.minutes ++ [':'] ++ pad large t.seconds 2

end Float64

end TimestampUtils

/-! ## `TextUtils` -/

namespace TextUtils

open TimestampUtils

/-- The characters `.`, `)` and `-` of the class `[\.\)\-]`. -/
def isNumberingMark (c : Char) : Bool := c == '.' || c == ')' || c == '-'

/-- Whether `/^\d+[\.\)\-]/` matches: the string starts with one or more digits and the
first character after them is `.`, `)` or `-`. -/
def hasNumbering (title : Str) : Bool :=
  match title.dropWhile isDigit with
  | c :: _ => !(title.takeWhile isDigit).isEmpty && isNumberingMark c
  | [] => false

/-- The call `title.replace(/^\d+[\.\)\-]\s*/, '')`: when the pattern matches, the
digits, the mark and all the whitespace after it are removed. -/
def stripNumbering (title : Str) : Str :=
  if hasNumbering title then ((title.dropWhile isDigit).drop 1).dropWhile isWs else title

/-- The function `removeNumbering(title)`. -/
def removeNumbering (title : Str) : Str := trim (stripNumbering title)

/-- The call `s.startsWith('##')`. -/
def startsWithMarker : Str → Bool
  | a :: b :: _ => a == '#' && b == '#'
  | _ => false

/-- The call `trimmed.replace(/^##\s*/, '')`. -/
def stripMarker (trimmed : Str) : Str :=
  if startsWithMarker trimmed then (trimmed.drop 2).dropWhile isWs else trimmed

/-- The call `text.split('\n')`: the pieces between the line feeds (`"".split` gives
`[""]`). -/
def splitLines : Str → List Str
  | [] => [[]]
  | c :: cs =>
    if c = '\n' then [] :: splitLines cs
    else
      match splitLines cs with
      | [] => [[c]]
      | l :: ls => (c :: l) :: ls

/-- The function `extractTitles(text)`. -/
def extractTitles (text : Str) : List Str :=
  (splitLines text).foldl (fun titles line =>
    let trimmed := trim line
    if startsWithMarker trimmed then
      let titleWithoutHash := stripMarker trimmed
      titles ++ [removeNumbering titleWithoutHash]
    else titles) []

/-- The call `text.replace(/\r\n/g, '\n')`. -/
def replaceCRLF : Str → Str
  | [] => []
  | [c] => [c]
  | c :: d :: cs =>
    if c = '\r' ∧ d = '\n' then '\n' :: replaceCRLF cs else c :: replaceCRLF (d :: cs)

/-- The call `text.replace(/\r/g, '\n')`. -/
def replaceCR (text : Str) : Str := text.map (fun c => if c = '\r' then '\n' else c)

/-- The variables of the loop of `divideIntoTopics`. -/
structure Parse where
  topics : List Topic
  currentTopic : Option Topic
  autoCounter : Nat
deriving DecidableEq

/-- The title of a marker line without a title. -/
def noTitle : Str := ['(', 'N', 'o', ' ', 't', 'i', 't', 'l', 'e', ')']

/-- The body of `for (const line of lines)` in `divideIntoTopics`. -/
def divideStep (st : Parse) (line : Str) : Parse :=
  let trimmed := trim line
  if startsWithMarker trimmed then
    let topics :=
      match st.currentTopic with
      | some t => st.topics ++ [t]
      | none => st.topics
    let titleWithoutHash := stripMarker trimmed
    let title := removeNumbering titleWithoutHash
    { topics := topics
      currentTopic := some ⟨st.autoCounter, if title ≠ [] then title else noTitle, []⟩
      autoCounter := st.autoCounter + 1 }
  else
    match st.currentTopic with
    | some t => { st with currentTopic := some { t with content := t.content ++ line ++ [' '] } }
    | none => st

/-- The end of `divideIntoTopics`: the topic in progress, if any, is pushed and the
list is returned. -/
def Parse.result (st : Parse) : List Topic :=
  match st.currentTopic with
  | some t => st.topics ++ [t]
  | none => st.topics

/-- The function `divideIntoTopics(text)`. -/
def divideIntoTopics (text : Str) : List Topic :=
  let normalizedText := replaceCR (replaceCRLF text)
  let lines := splitLines normalizedText
  (lines.foldl divideStep ⟨[], none, 1⟩).result

/-! ### Definitions used to state the properties of the parser -/

/-- The lines of a text once the line endings are normalised. -/
def linesOf (text : Str) : List Str := splitLines (replaceCR (replaceCRLF text))

/-- A marker line: a line that starts with `##` after trimming. -/
def isMarkerLine (line : Str) : Bool := startsWithMarker (trim line)

/-- The title that a marker line carries: the trimmed line without the marker, the
whitespace after it and the numbering. -/
def derivedTitle (line : Str) : Str := removeNumbering (stripMarker (trim line))

/-- The lines joined into a content: each line as it is, followed by one space. -/
def joinLines (lines : List Str) : Str := lines.flatMap (fun l => l ++ [' '])

/-- The sections of a text: each marker line with the lines that lie between it and
the next marker line or the end. The lines before the first marker line belong to no
section. -/
def sections : List Str → List (Str × List Str)
  | [] => []
  | l :: rest =>
    if isMarkerLine l then (l, rest.takeWhile (fun x => !isMarkerLine x)) :: sections rest
    else sections rest

/-- The topics of a list of lines, numbered from `n`: one topic for each section. -/
def topicsFrom : Nat → List Str → List Topic
  | _, [] => []
  | n, l :: rest =>
    if isMarkerLine l then
      ⟨n, if derivedTitle l ≠ [] then derivedTitle l else noTitle,
        joinLines (rest.takeWhile (fun x => !isMarkerLine x))⟩ :: topicsFrom (n + 1) rest
    else topicsFrom n rest

/-- A text with every line feed replaced by a carriage return and a line feed. -/
def toCRLF (text : Str) : Str := text.flatMap (fun c => if c = '\n' then ['\r', '\n'] else [c])

/-- A text with every line feed replaced by a carriage return. -/
def toCR (text : Str) : Str := text.map (fun c => if c = '\n' then '\r' else c)

end TextUtils

/-! ## `ExcelExporter` -/

namespace ExcelExporter

open TextUtils

/-- A cell of a sheet: a number or a string. -/
inductive Cell where
  | num (n : Nat)
  | str (s : Str)
deriving DecidableEq

/-- One call of `XLSX.writeFile`: the name of the file and the rows `data` of its sheet. -/
structure Workbook where
  filename : Str
  data : List (List Cell)
deriving DecidableEq

/-- The variables of the first loop of `export`. -/
structure Extract where
  titles : List Str
  contents : List Str
  currentTitle : Str
  currentContent : Str
deriving DecidableEq

/-- The body of `lines.forEach(line => ...)`. -/
def extractStep (st : Extract) (line : Str) : Extract :=
  let trimmed := trim line
  if startsWithMarker trimmed then
    let st1 :=
      if st.currentTitle ≠ [] then
        { st with
          titles := st.titles ++ [st.currentTitle]
          contents := st.contents ++ [trim st.currentContent]
          currentContent := [] }
      else st
    let titleWithoutHash := trim (trimmed.drop 2)
    { st1 with currentTitle := removeNumbering titleWithoutHash }
  else if 0 < st.currentTitle.length then
    { st with currentContent := st.currentContent ++ trimmed ++ [' '] }
  else st

/-- The titles and the contents that `export` extracts from a text: the loop over the
lines and the push of the last title and content. -/
def extract (text : Str) : List Str × List Str :=
  let lines := splitLines text
  let st := lines.foldl extractStep ⟨[], [], [], []⟩
  if st.currentTitle ≠ [] then
    (st.titles ++ [st.currentTitle], st.contents ++ [trim st.currentContent])
  else (st.titles, st.contents)

/-- The header row `['title', 'input']`. -/
def header : List Cell := [Cell.str ['t', 'i', 't', 'l', 'e'], Cell.str ['i', 'n', 'p', 'u', 't']]

/-- The row of item `j`: `[j + 1, titles[j] + ' ' + contents[j]]`. -/
def dataRow (titles contents : List Str) (j : Nat) : List Cell :=
  [Cell.num (j + 1), Cell.str (titles.getD j [] ++ [' '] ++ contents.getD j [])]

/-- The rows of the file that starts at item `i`: the header, then the rows of the
items `j` with `i ≤ j < Math.min(i + limit, titles.length)`. -/
def fileData (titles contents : List Str) (limit i : Nat) : List (List Cell) :=
  header :: (List.range' i (min (i + limit) titles.length - i)).map (dataRow titles contents)

/-- The base of the file names: `titles[0].replace(/[:\\/\?*\[\]]/g, '').substring(0, 50)`. -/
def baseFilename (titles : List Str) : Str :=
  ((titles.getD 0 []).filter (fun c =>
    !(c == ':' || c == '\\' || c == '/' || c == '?' || c == '*' || c == '[' || c == ']'))).take 50

/-- The name of the file that starts at item `i`, with the part numbers when there is
more than one part. -/
def filenameOf (titles : List Str) (limit i : Nat) : Str :=
  let partNum := i / limit + 1
  let totalParts := (titles.length + limit - 1) / limit
  if totalParts > 1 then
    baseFilename titles ++ ['_'] ++ Nat.toDigits 10 partNum ++ ['o', 'f'] ++
      Nat.toDigits 10 totalParts ++ ['.', 'x', 'l', 's', 'x']
  else baseFilename titles ++ ['.', 'x', 'l', 's', 'x']

/-- The loop `for (let i = 0; i < titles.length; i += limit)` from `i` on, with a
bound on the number of iterations: `none` when the bound is reached before the loop
ends. -/
def fileLoop (titles contents : List Str) (limit : Nat) : Nat → Nat → Option (List Workbook)
  | 0, i => if i < titles.length then none else some []
  | fuel + 1, i =>
    if i < titles.length then
      (fileLoop titles contents limit fuel (i + limit)).map
        (fun rest => ⟨filenameOf titles limit i, fileData titles contents limit i⟩ :: rest)
    else some []

/-- The function `export(text, limit)`: the files written, none when no title is found.
The loop over the parts gets as many iterations as there are titles, which is enough
for a positive `limit`; with `limit = 0` the loop of the source does not end and the
result is `none`. -/
def exportFiles (text : Str) (limit : Nat) : Option (List Workbook) :=
  let extracted := extract text
  let titles := extracted.1
  let contents := extracted.2
  if titles.length = 0 then some []
  else fileLoop titles contents limit titles.length 0

end ExcelExporter

/-! ## Definitions used to state the properties of the segmentation -/

/-- A string with all the whitespace removed. -/
def stripWs (s : Str) : Str := s.filter (fun c => !isWs c)

namespace SRTGenerator

/-- What a state of the segmentation loop holds: the texts of the blocks emitted and
the buffer, without whitespace. -/
def held (st : Seg) : Str :=
  stripWs (st.run.srtContent.map Entry.text).flatten ++ stripWs st.currentBlock

/-- A content for which the first break is a split at the last period: the word "a."
and one word of 498 characters. -/
def splitContent : Str := ['a', '.', ' '] ++ List.replicate 498 'b'

end SRTGenerator

/-! ## Whitespace, `trim` and `split` -/

theorem trim_eq_rdropWhile (s : Str) :
    trim s = (s.dropWhile isWs).rdropWhile isWs := rfl

theorem length_trim_le (s : Str) : (trim s).length ≤ s.length := by
  rw [trim_eq_rdropWhile]
  have h1 : ((s.dropWhile isWs).rdropWhile isWs).length ≤ (s.dropWhile isWs).length :=
    (List.rdropWhile_prefix isWs _).length_le
  have h2 : (s.dropWhile isWs).length ≤ s.length :=
    (List.dropWhile_suffix isWs).length_le
  exact h1.trans h2

theorem trim_eq_nil_iff (s : Str) : trim s = [] ↔ ∀ c ∈ s, isWs c = true := by
  rw [trim_eq_rdropWhile, List.rdropWhile_eq_nil_iff]
  constructor
  · intro h
    have h2 : s.dropWhile isWs = [] := by
      cases hd : s.dropWhile isWs with
      | nil => rfl
      | cons x xs =>
        have hx := h x (by rw [hd]; exact List.mem_cons_self _ _)
        have hn := List.head_dropWhile_not isWs s (by rw [hd]; exact List.cons_ne_nil _ _)
        simp only [hd, List.head_cons] at hn
        rw [hx] at hn
        exact absurd hn (by decide)
    exact List.dropWhile_eq_nil_iff.1 h2
  · intro h
    rw [List.dropWhile_eq_nil_iff.2 h]
    intro x hx
    cases hx

theorem trim_ne_nil_of_mem (s : Str) (c : Char) (hc : c ∈ s) (hw : isWs c = false) :
    trim s ≠ [] := by
  intro h
  have := (trim_eq_nil_iff s).1 h c hc
  rw [hw] at this
  cases this

theorem splitWsGo_noWs (inSep : Bool) (s : Str) :
    ∀ p ∈ splitWsGo inSep s, ∀ c ∈ p, isWs c = false := by
  induction s generalizing inSep with
  | nil =>
    intro p hp c hc
    simp only [splitWsGo, List.mem_singleton] at hp
    subst hp
    cases hc
  | cons x xs ih =>
    intro p hp c hc
    unfold splitWsGo at hp
    by_cases hx : isWs x = true
    · rw [if_pos hx] at hp
      cases inSep with
      | true => exact ih true p (by simpa using hp) c hc
      | false =>
        simp only [Bool.false_eq_true, if_false, List.mem_cons] at hp
        rcases hp with rfl | hp
        · cases hc
        · exact ih true p hp c hc
    · rw [if_neg hx] at hp
      cases hs : splitWsGo false xs with
      | nil =>
        rw [hs] at hp
        simp only [List.mem_singleton] at hp
        subst hp
        simp only [List.mem_singleton] at hc
        subst hc
        simpa using hx
      | cons q qs =>
        rw [hs] at hp
        simp only [List.mem_cons] at hp
        rcases hp with rfl | hp
        · simp only [List.mem_cons] at hc
          rcases hc with rfl | hc
          · simpa using hx
          · exact ih false q (by rw [hs]; exact List.mem_cons_self _ _) c hc
        · exact ih false p (by rw [hs]; exact List.mem_cons_of_mem _ hp) c hc

/-- Every word of a text is non-empty and free of whitespace. -/
theorem wordsOf_isWord (text : Str) : ∀ w ∈ wordsOf text, IsWord w := by
  intro w hw
  unfold wordsOf at hw
  rw [List.mem_filter] at hw
  obtain ⟨h1, h2⟩ := hw
  refine ⟨?_, splitWsGo_noWs false _ w h1⟩
  intro h
  subst h
  simp at h2

/-! ### Counting words -/

theorem trim_concat_ws (l : Str) (x : Char) (hx : isWs x = true) :
    trim (l ++ [x]) = trim l := by
  rw [trim_eq_rdropWhile, trim_eq_rdropWhile, List.dropWhile_append]
  by_cases he : (l.dropWhile isWs).isEmpty = true
  · rw [if_pos he]
    have hnil : l.dropWhile isWs = [] := List.isEmpty_iff.1 he
    rw [hnil, List.dropWhile_cons_of_pos hx]
    rfl
  · rw [if_neg he, List.rdropWhile_concat_pos _ _ _ hx]

theorem trim_trim (s : Str) : trim (trim s) = trim s := by
  have hd : (trim s).dropWhile isWs = trim s := by
    have hpre : trim s <+: s.dropWhile isWs := List.rdropWhile_prefix isWs _
    cases hts : trim s with
    | nil => rfl
    | cons a as =>
      obtain ⟨t, ht⟩ := hpre
      have hcons : s.dropWhile isWs = a :: (as ++ t) := by rw [← ht, hts]; rfl
      have hhead := List.head_dropWhile_not isWs s (by rw [hcons]; exact List.cons_ne_nil _ _)
      simp only [hcons, List.head_cons] at hhead
      exact List.dropWhile_cons_of_neg (by simp [hhead])
  rw [trim_eq_rdropWhile (trim s), hd, trim_eq_rdropWhile, List.rdropWhile_idempotent]

theorem countWords_flag (s : Str) :
    countWords false s ≤ countWords true s ∧ countWords true s ≤ countWords false s + 1 := by
  cases s with
  | nil => simp [countWords]
  | cons c cs =>
    by_cases hc : isWs c = true
    · simp [countWords, hc]
    · simp [countWords, hc]; omega

theorem countWords_ws_cons (b : Bool) (c : Char) (cs : Str) (hc : isWs c = true) :
    countWords b (c :: cs) = countWords true cs := by
  simp [countWords, hc]

theorem countWords_append_ws (b : Bool) (a : Str) (x : Char) (s : Str) (hx : isWs x = true) :
    countWords b (a ++ x :: s) = countWords b a + countWords true s := by
  induction a generalizing b with
  | nil => simp [countWords, hx]
  | cons c a ih =>
    by_cases hc : isWs c = true
    · simp [countWords, hc, ih]
    · simp [countWords, hc, ih]; omega

theorem countWords_concat_ws (b : Bool) (a : Str) (x : Char) (hx : isWs x = true) :
    countWords b (a ++ [x]) = countWords b a := by
  rw [countWords_append_ws b a x [] hx]
  simp [countWords]

theorem countWords_false_noWs (w : Str) (hw : ∀ c ∈ w, isWs c = false) :
    countWords false w = 0 := by
  induction w with
  | nil => rfl
  | cons c w ih =>
    have hc := hw c (List.mem_cons_self _ _)
    simp [countWords, hc, ih (fun x hx => hw x (List.mem_cons_of_mem _ hx))]

theorem countWords_word (w : Str) (hw : IsWord w) : countWords true w = 1 := by
  obtain ⟨hne, hns⟩ := hw
  cases w with
  | nil => exact absurd rfl hne
  | cons c w =>
    have hc := hns c (List.mem_cons_self _ _)
    simp [countWords, hc, countWords_false_noWs w (fun x hx => hns x (List.mem_cons_of_mem _ hx))]

theorem countWords_dropWhile (s : Str) :
    countWords true (s.dropWhile isWs) = countWords true s := by
  induction s with
  | nil => rfl
  | cons c cs ih =>
    by_cases hc : isWs c = true
    · rw [List.dropWhile_cons_of_pos hc, ih, countWords_ws_cons _ _ _ hc]
    · rw [List.dropWhile_cons_of_neg hc]

theorem countWords_rdropWhile (b : Bool) (s : Str) :
    countWords b (s.rdropWhile isWs) = countWords b s := by
  induction s using List.reverseRecOn with
  | nil => simp
  | append_singleton l x ih =>
    by_cases hx : isWs x = true
    · rw [List.rdropWhile_concat_pos _ _ _ hx, ih, countWords_concat_ws _ _ _ hx]
    · rw [List.rdropWhile_concat_neg _ _ _ hx]

theorem countWords_trim (s : Str) : countWords true (trim s) = countWords true s := by
  rw [trim_eq_rdropWhile, countWords_rdropWhile, countWords_dropWhile]

theorem countWords_take_le (b : Bool) (k : Nat) (s : Str) :
    countWords b (s.take k) ≤ countWords b s := by
  induction s generalizing b k with
  | nil => simp
  | cons c cs ih =>
    cases k with
    | zero => simp [countWords]
    | succ k =>
      by_cases hc : isWs c = true
      · simpa [countWords, hc] using ih true k
      · simpa [countWords, hc] using ih false k

theorem countWords_drop_le (k : Nat) (s : Str) :
    countWords true (s.drop k) ≤ countWords true s := by
  induction s generalizing k with
  | nil => simp
  | cons c cs ih =>
    cases k with
    | zero => simp
    | succ k =>
      have h1 := ih k
      have h2 := countWords_flag cs
      by_cases hc : isWs c = true
      · simpa [countWords, hc] using h1
      · simp only [List.drop_succ_cons, countWords, hc, Bool.false_eq_true, if_false, if_true]
        omega

theorem splitWsGo_count (s : Str) :
    ((splitWsGo true s).filter (fun w => decide (0 < w.length))).length = countWords true s ∧
    ∃ p ps, splitWsGo false s = p :: ps ∧
      (ps.filter (fun w => decide (0 < w.length))).length = countWords false s := by
  induction s with
  | nil => exact ⟨by simp [splitWsGo, countWords], [], [], rfl, by simp [countWords]⟩
  | cons c cs ih =>
    obtain ⟨ih1, p, ps, hp, hps⟩ := ih
    by_cases hc : isWs c = true
    · refine ⟨by simpa [splitWsGo, countWords, hc] using ih1, [], splitWsGo true cs, ?_, ?_⟩
      · simp [splitWsGo, hc]
      · simpa [countWords, hc] using ih1
    · refine ⟨?_, c :: p, ps, ?_, ?_⟩
      · simp [splitWsGo, countWords, hc, hp, hps]; omega
      · simp [splitWsGo, hc, hp]
      · simpa [countWords, hc] using hps

theorem splitWs_words (s : Str) :
    ((splitWs s).filter (fun w => decide (0 < w.length))).length = countWords true s := by
  rw [← (splitWsGo_count s).1]
  unfold splitWs
  cases s with
  | nil => rfl
  | cons c cs =>
    by_cases hc : isWs c = true
    · simp [splitWsGo, hc]
    · simp [splitWsGo, hc]

/-- The number of words of a text is the number of places where a word starts. -/
theorem length_wordsOf (s : Str) : (wordsOf s).length = countWords true s := by
  unfold wordsOf
  rw [splitWs_words, countWords_trim]

theorem countWords_le_splitWs (s : Str) : countWords true s ≤ (splitWs s).length := by
  rw [← splitWs_words]
  exact List.length_filter_le _ _

/-! ### `lastIndexOf` -/

theorem lastIndexOf_eq_none_iff (c : Char) (s : Str) : lastIndexOf c s = none ↔ c ∉ s := by
  induction s with
  | nil => simp [lastIndexOf]
  | cons x xs ih =>
    unfold lastIndexOf
    cases h : lastIndexOf c xs with
    | none =>
      have hc : c ∉ xs := ih.1 h
      by_cases hx : x = c
      · simp [hx]
      · simp [hx, hc, Ne.symm hx]
    | some i =>
      have hc : c ∈ xs := by
        by_contra hn
        rw [ih.2 hn] at h
        cases h
      simp [hc]

theorem lastIndexOf_lt (c : Char) (s : Str) (p : Nat) (h : lastIndexOf c s = some p) :
    p < s.length := by
  induction s generalizing p with
  | nil => simp [lastIndexOf] at h
  | cons x xs ih =>
    unfold lastIndexOf at h
    cases hx : lastIndexOf c xs with
    | none =>
      rw [hx] at h
      simp only at h
      split_ifs at h
      cases h
      simp
    | some i =>
      rw [hx] at h
      cases h
      have := ih i hx
      simp only [List.length_cons]
      omega

theorem lastIndexOf_drop (c : Char) (s : Str) (p : Nat) (h : lastIndexOf c s = some p) :
    c ∉ s.drop (p + 1) := by
  induction s generalizing p with
  | nil => simp [lastIndexOf] at h
  | cons x xs ih =>
    unfold lastIndexOf at h
    cases hx : lastIndexOf c xs with
    | none =>
      rw [hx] at h
      simp only at h
      split_ifs at h
      cases h
      simpa using (lastIndexOf_eq_none_iff c xs).1 hx
    | some i =>
      rw [hx] at h
      cases h
      simpa using ih i hx

theorem lastIndexOf_append_ge (c : Char) (a b : Str) (q : Nat) (ha : c ∉ a)
    (h : lastIndexOf c (a ++ b) = some q) : a.length ≤ q := by
  induction a generalizing q with
  | nil => simp
  | cons x xs ih =>
    rw [List.cons_append] at h
    unfold lastIndexOf at h
    have hx : x ≠ c := fun e => ha (by rw [e]; exact List.mem_cons_self _ _)
    have hxs : c ∉ xs := fun e => ha (List.mem_cons_of_mem _ e)
    cases hl : lastIndexOf c (xs ++ b) with
    | none =>
      rw [hl] at h
      simp [hx] at h
    | some i =>
      rw [hl] at h
      cases h
      have := ih i hxs hl
      simp only [List.length_cons]
      omega

/-! ### Buffers that end with whitespace -/

theorem EndsWs.concat (l : Str) : EndsWs (l ++ [' ']) :=
  Or.inr ⟨l, ' ', rfl, by decide⟩

theorem EndsWs.length_trim (b : Str) (h : EndsWs b) : (trim b).length ≤ b.length - 1 := by
  rcases h with rfl | ⟨l, x, rfl, hx⟩
  · simp [trim]
  · rw [trim_concat_ws l x hx]
    have := length_trim_le l
    simp only [List.length_append, List.length_singleton]
    omega

theorem EndsWs.drop (b : Str) (k : Nat) (h : EndsWs b) : EndsWs (b.drop k) := by
  rcases h with rfl | ⟨l, x, rfl, hx⟩
  · left; simp
  · by_cases hk : k ≤ l.length
    · right
      exact ⟨l.drop k, x, by rw [List.drop_append_of_le_length hk], hx⟩
    · left
      apply List.drop_eq_nil_of_le
      simp only [List.length_append, List.length_singleton]
      omega

theorem countWords_push (b w : Str) (hb : EndsWs b) (hw : IsWord w) :
    countWords true (b ++ w ++ [' ']) = countWords true b + 1 := by
  rw [countWords_concat_ws _ _ _ (by decide)]
  rcases hb with rfl | ⟨l, x, rfl, hx⟩
  · simp [countWords_word w hw, countWords]
  · rw [List.append_assoc, List.singleton_append, countWords_append_ws _ _ _ _ hx,
      countWords_concat_ws _ _ _ hx, countWords_word w hw]

/-! ### The characters of the words -/

theorem splitWsGo_subset (inSep : Bool) (s : Str) :
    ∀ p ∈ splitWsGo inSep s, ∀ c ∈ p, c ∈ s := by
  induction s generalizing inSep with
  | nil =>
    intro p hp c hc
    simp only [splitWsGo, List.mem_singleton] at hp
    subst hp
    cases hc
  | cons x xs ih =>
    intro p hp c hc
    unfold splitWsGo at hp
    by_cases hx : isWs x = true
    · rw [if_pos hx] at hp
      cases inSep with
      | true => exact List.mem_cons_of_mem _ (ih true p (by simpa using hp) c hc)
      | false =>
        simp only [Bool.false_eq_true, if_false, List.mem_cons] at hp
        rcases hp with rfl | hp
        · cases hc
        · exact List.mem_cons_of_mem _ (ih true p hp c hc)
    · rw [if_neg hx] at hp
      cases hs : splitWsGo false xs with
      | nil =>
        rw [hs] at hp
        simp only [List.mem_singleton] at hp
        subst hp
        simp only [List.mem_singleton] at hc
        subst hc
        exact List.mem_cons_self _ _
      | cons q qs =>
        rw [hs] at hp
        simp only [List.mem_cons] at hp
        rcases hp with rfl | hp
        · simp only [List.mem_cons] at hc
          rcases hc with rfl | hc
          · exact List.mem_cons_self _ _
          · exact List.mem_cons_of_mem _
              (ih false q (by rw [hs]; exact List.mem_cons_self _ _) c hc)
        · exact List.mem_cons_of_mem _
            (ih false p (by rw [hs]; exact List.mem_cons_of_mem _ hp) c hc)

theorem mem_of_mem_trim (s : Str) (c : Char) (h : c ∈ trim s) : c ∈ s := by
  rw [trim_eq_rdropWhile] at h
  exact (List.dropWhile_suffix isWs).subset ((List.rdropWhile_prefix isWs _).subset h)

/-- Every character of a word of a text is a character of the text. -/
theorem wordsOf_subset (text : Str) : ∀ w ∈ wordsOf text, ∀ c ∈ w, c ∈ text := by
  intro w hw c hc
  unfold wordsOf at hw
  rw [List.mem_filter] at hw
  exact mem_of_mem_trim _ _ (splitWsGo_subset false _ w hw.1 c hc)

/-! ## `calculateNextTopicStart` -/

namespace TimestampUtils

theorem calculateNextTopicStart_ge (t : Nat) : t + 60 ≤ calculateNextTopicStart t := by
  unfold calculateNextTopicStart TOPIC_INTERVAL
  simp only
  omega

/-- In integer arithmetic, for every non-negative integer `t`,
`calculateNextTopicStart t` is `m + TOPIC_INTERVAL` where `m` is the least multiple of
60 that is at least `t`; the result is a multiple of 60 and lies in
`[t + 60, t + 120)`. -/
theorem calculateNextTopicStart_spec (t : Nat) :
    (∃ m, IsLeast {x : Nat | 60 ∣ x ∧ t ≤ x} m ∧
      calculateNextTopicStart t = m + TOPIC_INTERVAL) ∧
    TOPIC_INTERVAL = 60 ∧
    60 ∣ calculateNextTopicStart t ∧
    t + 60 ≤ calculateNextTopicStart t ∧
    calculateNextTopicStart t < t + 120 := by
  refine ⟨⟨((t + 59) / 60) * 60, ⟨⟨?_, ?_⟩, ?_⟩, rfl⟩, rfl, ?_, ?_, ?_⟩
  · exact Dvd.intro_left _ rfl
  · omega
  · rintro x ⟨⟨k, rfl⟩, hx⟩
    omega
  · unfold calculateNextTopicStart TOPIC_INTERVAL
    simp only
    omega
  · exact calculateNextTopicStart_ge t
  · unfold calculateNextTopicStart TOPIC_INTERVAL
    simp only
    omega

end TimestampUtils

/-! ## The run as a sequence of `addBlock` calls -/

namespace SRTGenerator

open TimestampUtils

theorem emitAll_append (r : Run) (a b : List (Str × Nat)) :
    emitAll r (a ++ b) = emitAll (emitAll r a) b := by
  simp [emitAll, List.foldl_append]

theorem emitAll_concat (r : Run) (a : List (Str × Nat)) (t : Str) (d : Nat) :
    emitAll r (a ++ [(t, d)]) = addBlock (emitAll r a) t d := by
  simp [emitAll, List.foldl_append]

theorem contentCalls_addBlock (r : Run) (t : Str) (d : Nat) :
    contentCalls (addBlock r t d) = contentCalls r ++ [(t, BLOCK_DURATION)] := by
  simp [contentCalls, addBlock]

/-- One step of the segmentation loop does the same to the buffer whatever the run,
and appends the same block. -/
theorem segStep_sim (base : Run) (st st0 : Seg) (w : Str)
    (hb : st.currentBlock = st0.currentBlock) (hn : st.wordsInBlock = st0.wordsInBlock)
    (hr : st.run = emitAll base (contentCalls st0.run)) :
    (segStep st w).currentBlock = (segStep st0 w).currentBlock ∧
    (segStep st w).wordsInBlock = (segStep st0 w).wordsInBlock ∧
    (segStep st w).run = emitAll base (contentCalls (segStep st0 w).run) := by
  obtain ⟨r, b, n⟩ := st
  obtain ⟨r0, b0, n0⟩ := st0
  simp only at hb hn hr
  subst hb hn hr
  unfold segStep
  simp only
  split_ifs with h1
  · exact ⟨rfl, rfl, rfl⟩
  · split
    · split_ifs
      · simp [contentCalls_addBlock, emitAll_concat]
      · simp [contentCalls_addBlock, emitAll_concat]
    · simp [contentCalls_addBlock, emitAll_concat]

theorem foldl_segStep_sim (base : Run) (ws : List Str) (st st0 : Seg)
    (hb : st.currentBlock = st0.currentBlock) (hn : st.wordsInBlock = st0.wordsInBlock)
    (hr : st.run = emitAll base (contentCalls st0.run)) :
    (ws.foldl segStep st).currentBlock = (ws.foldl segStep st0).currentBlock ∧
    (ws.foldl segStep st).wordsInBlock = (ws.foldl segStep st0).wordsInBlock ∧
    (ws.foldl segStep st).run = emitAll base (contentCalls (ws.foldl segStep st0).run) := by
  induction ws generalizing st st0 with
  | nil => exact ⟨hb, hn, hr⟩
  | cons w ws ih =>
    obtain ⟨h1, h2, h3⟩ := segStep_sim base st st0 w hb hn hr
    exact ih _ _ h1 h2 h3

/-- The content part of a topic appends its content blocks to the run, each with
`BLOCK_DURATION`. -/
theorem segment_eq_emitAll (r : Run) (content : Str) :
    segment r content =
      emitAll r ((contentBlocks content).map (fun t => (t, BLOCK_DURATION))) := by
  have hmap : ∀ r0 : Run, (r0.srtContent.map Entry.text).map (fun t => (t, BLOCK_DURATION))
      = contentCalls r0 := by
    intro r0; simp [contentCalls, List.map_map, Function.comp_def]
  obtain ⟨h1, _, h3⟩ := foldl_segStep_sim r (wordsOf content) ⟨r, [], 0⟩ ⟨Run.init, [], 0⟩
    rfl rfl (by simp [contentCalls, Run.init, emitAll])
  unfold contentBlocks
  rw [hmap]
  unfold segment segLoop
  simp only
  rw [h1, h3]
  split_ifs with h
  · rw [contentCalls_addBlock, emitAll_concat]
  · rfl

theorem topicBlocks_eq_emitAll (includeTitles : Bool) (r : Run) (topic : Topic) :
    topicBlocks includeTitles r topic = emitAll r (topicEmits includeTitles topic) := by
  unfold topicBlocks topicEmits
  rw [segment_eq_emitAll, emitAll_append]
  cases includeTitles <;> rfl

/-! ### What a sequence of `addBlock` calls does to each variable -/

theorem emitAll_cons (r : Run) (c : Str × Nat) (cs : List (Str × Nat)) :
    emitAll r (c :: cs) = emitAll (addBlock r c.1 c.2) cs := rfl

theorem emitAll_induction (P : Run → Prop) (l : List (Str × Nat))
    (hstep : ∀ r t d, (t, d) ∈ l → P r → P (addBlock r t d)) (r : Run) (h : P r) :
    P (emitAll r l) := by
  induction l generalizing r with
  | nil => exact h
  | cons c cs ih =>
    rw [emitAll_cons]
    exact ih (fun r t d hm => hstep r t d (List.mem_cons_of_mem _ hm)) _
      (hstep r c.1 c.2 (List.mem_cons_self _ _) h)

theorem emitAll_globalCounter (r : Run) (l : List (Str × Nat)) :
    (emitAll r l).globalCounter = r.globalCounter + l.length := by
  induction l generalizing r with
  | nil => rfl
  | cons c cs ih => rw [emitAll_cons, ih]; simp [addBlock]; omega

theorem emitAll_realTime (r : Run) (l : List (Str × Nat)) :
    (emitAll r l).realTime = r.realTime + (l.map Prod.snd).sum := by
  induction l generalizing r with
  | nil => rfl
  | cons c cs ih => rw [emitAll_cons, ih]; simp [addBlock]; omega

theorem emitAll_srtTime (r : Run) (l : List (Str × Nat)) :
    (emitAll r l).srtTime = r.srtTime + (l.map Prod.snd).sum + BLOCK_INTERVAL * l.length := by
  induction l generalizing r with
  | nil => rfl
  | cons c cs ih => rw [emitAll_cons, ih]; simp [addBlock, Nat.mul_add]; omega

theorem emitAll_topicsData (r : Run) (l : List (Str × Nat)) :
    (emitAll r l).topicsData = r.topicsData := by
  induction l generalizing r with
  | nil => rfl
  | cons c cs ih => rw [emitAll_cons, ih]; rfl

theorem emitAll_length (r : Run) (l : List (Str × Nat)) :
    (emitAll r l).srtContent.length = r.srtContent.length + l.length := by
  induction l generalizing r with
  | nil => rfl
  | cons c cs ih => rw [emitAll_cons, ih]; simp [addBlock]; omega

/-- The texts and display durations of the entries are those of the calls. -/
theorem emitAll_calls (r : Run) (l : List (Str × Nat)) :
    (emitAll r l).srtContent.map (fun e => (e.text, e.endTime - e.startTime)) =
      r.srtContent.map (fun e => (e.text, e.endTime - e.startTime)) ++ l := by
  induction l generalizing r with
  | nil => simp [emitAll]
  | cons c cs ih => rw [emitAll_cons, ih]; simp [addBlock]

theorem topicEmits_duration (includeTitles : Bool) (topic : Topic) (c : Str × Nat)
    (h : c ∈ topicEmits includeTitles topic) :
    c.2 = TITLE_DURATION ∨ c.2 = BLOCK_DURATION := by
  unfold topicEmits at h
  rcases List.mem_append.1 h with h | h
  · cases includeTitles
    · simp at h
    · simp at h; left; rw [h]
  · obtain ⟨t, _, rfl⟩ := List.mem_map.1 h
    right; rfl

/-! ### One topic and the whole loop -/

theorem processTopic_eq (includeTitles : Bool) (len : Nat) (r : Run) (topic : Topic)
    (index : Nat) :
    processTopic includeTitles len r topic index =
      { emitAll r (topicEmits includeTitles topic) with
        topicsData := r.topicsData ++ [⟨topic.number, topic.title, r.realTime⟩]
        srtTime :=
          if index + 1 < len then
            calculateNextTopicStart (emitAll r (topicEmits includeTitles topic)).srtTime
          else (emitAll r (topicEmits includeTitles topic)).srtTime } := by
  unfold processTopic
  simp only [topicBlocks_eq_emitAll, emitAll_topicsData]
  split_ifs <;> rfl

theorem topicLoop_induction (includeTitles : Bool) (len : Nat) (P : Nat → Run → Prop)
    (hstep : ∀ i r t, P i r → P (i + 1) (processTopic includeTitles len r t i))
    (ts : List Topic) (i : Nat) (r : Run) (h : P i r) :
    P (i + ts.length) (topicLoop includeTitles len i ts r) := by
  induction ts generalizing i r with
  | nil => exact h
  | cons t ts ih =>
    have := ih (i + 1) _ (hstep i r t h)
    rw [List.length_cons, show i + (ts.length + 1) = i + 1 + ts.length by omega]
    exact this

theorem displayTime_cons (includeTitles : Bool) (t : Topic) (ts : List Topic) :
    displayTime includeTitles (t :: ts) =
      displayTime includeTitles [t] + displayTime includeTitles ts := by
  simp [displayTime]

theorem displayTime_single (includeTitles : Bool) (t : Topic) :
    displayTime includeTitles [t] = ((topicEmits includeTitles t).map Prod.snd).sum := by
  simp [displayTime]

theorem topicLoop_topicsData (includeTitles : Bool) (len : Nat) (ts : List Topic)
    (i : Nat) (r : Run) :
    (topicLoop includeTitles len i ts r).topicsData =
      r.topicsData ++ timeline includeTitles r.realTime ts := by
  induction ts generalizing i r with
  | nil => simp [topicLoop, timeline]
  | cons t ts ih =>
    rw [topicLoop, ih, processTopic_eq]
    simp [timeline, emitAll_realTime, displayTime_single]

theorem topicLoop_calls (includeTitles : Bool) (len : Nat) (ts : List Topic)
    (i : Nat) (r : Run) :
    (topicLoop includeTitles len i ts r).srtContent.map
        (fun e => (e.text, e.endTime - e.startTime)) =
      r.srtContent.map (fun e => (e.text, e.endTime - e.startTime)) ++
        ts.flatMap (topicEmits includeTitles) := by
  induction ts generalizing i r with
  | nil => simp [topicLoop]
  | cons t ts ih =>
    rw [topicLoop, ih, processTopic_eq]
    simp [emitAll_calls]

theorem timeline_length (includeTitles : Bool) (start : Nat) (ts : List Topic) :
    (timeline includeTitles start ts).length = ts.length := by
  induction ts generalizing start with
  | nil => rfl
  | cons t ts ih => simp [timeline, ih]

theorem timeline_getElem? (includeTitles : Bool) (start : Nat) (ts : List Topic) (k : Nat) :
    (timeline includeTitles start ts)[k]? =
      ts[k]?.map (fun t => ⟨t.number, t.title, start + displayTime includeTitles (ts.take k)⟩) := by
  induction ts generalizing start k with
  | nil => simp [timeline]
  | cons t ts ih =>
    cases k with
    | zero => simp [timeline, displayTime]
    | succ k =>
      simp only [timeline, List.getElem?_cons_succ, List.take_succ_cons, ih]
      rw [displayTime_cons includeTitles t (ts.take k)]
      simp [Nat.add_assoc]

/-- C1: `topicsData` has one entry per input topic, in input order, with the number and
the title of the topic; the `realTime` of entry `i` is the sum of the display
durations of the blocks of the topics before `i` (`TITLE_DURATION` for a title block,
`BLOCK_DURATION` for a content block, no padding), which is `0` for the first entry.
The blocks with these durations are the ones the run emits. -/
theorem generateComplete_topicsData (topics : List Topic) (includeTitles : Bool) :
    (generateComplete topics includeTitles).1.map
        (fun e => (e.text, e.endTime - e.startTime)) =
      topics.flatMap (topicEmits includeTitles) ∧
    (generateComplete topics includeTitles).2.length = topics.length ∧
    (∀ i : Nat, (generateComplete topics includeTitles).2[i]? =
      topics[i]?.map (fun t =>
        TopicData.mk t.number t.title (displayTime includeTitles (topics.take i)))) ∧
    (generateComplete topics includeTitles).2.head?.map TopicData.realTime =
      topics.head?.map (fun _ => 0) := by
  have htd : (generateComplete topics includeTitles).2 = timeline includeTitles 0 topics := by
    simp [generateComplete, generateCompleteRun, topicLoop_topicsData, Run.init]
  refine ⟨?_, ?_, ?_, ?_⟩
  · simp [generateComplete, generateCompleteRun, topicLoop_calls, Run.init]
  · rw [htd, timeline_length]
  · intro i
    rw [htd, timeline_getElem?]
    simp
  · rw [htd]
    cases topics <;> simp [timeline]

/-! ### Sequence indices -/

theorem addBlock_numbered (r : Run) (t : Str) (d : Nat)
    (h : r.srtContent.map Entry.index = List.range' 1 r.srtContent.length ∧
      r.globalCounter = r.srtContent.length + 1) :
    (addBlock r t d).srtContent.map Entry.index =
        List.range' 1 (addBlock r t d).srtContent.length ∧
      (addBlock r t d).globalCounter = (addBlock r t d).srtContent.length + 1 := by
  obtain ⟨h1, h2⟩ := h
  simp only [addBlock, List.map_append, List.map_cons, List.map_nil, List.length_append,
    List.length_singleton, h1, h2, List.range'_1_concat, Nat.add_comm 1, and_self]

theorem processTopic_numbered (includeTitles : Bool) (len : Nat) (r : Run) (topic : Topic)
    (index : Nat)
    (h : r.srtContent.map Entry.index = List.range' 1 r.srtContent.length ∧
      r.globalCounter = r.srtContent.length + 1) :
    (processTopic includeTitles len r topic index).srtContent.map Entry.index =
        List.range' 1 (processTopic includeTitles len r topic index).srtContent.length ∧
      (processTopic includeTitles len r topic index).globalCounter =
        (processTopic includeTitles len r topic index).srtContent.length + 1 := by
  rw [processTopic_eq]
  exact emitAll_induction
    (fun r => r.srtContent.map Entry.index = List.range' 1 r.srtContent.length ∧
      r.globalCounter = r.srtContent.length + 1) _
    (fun r t d _ hr => addBlock_numbered r t d hr) r h

/-- C9: the `n` blocks of one call carry the sequence indices `1, 2, ..., n` in
emission order, counted across all the topics. -/
theorem generateComplete_indices (topics : List Topic) (includeTitles : Bool) :
    (generateComplete topics includeTitles).1.map Entry.index =
      List.range' 1 (generateComplete topics includeTitles).1.length := by
  have h := topicLoop_induction includeTitles topics.length
    (fun _ r => r.srtContent.map Entry.index = List.range' 1 r.srtContent.length ∧
      r.globalCounter = r.srtContent.length + 1)
    (fun i r t hr => processTopic_numbered includeTitles topics.length r t i hr)
    topics 0 Run.init (by simp [Run.init])
  exact h.1

/-! ### Subtitle-clock stamps -/

theorem addBlock_stamps (r : Run) (t : Str) (d : Nat) (hd : 0 < d)
    (h : (∀ e ∈ r.srtContent, e.startTime < e.endTime ∧
        e.endTime + BLOCK_INTERVAL ≤ r.srtTime) ∧
      r.srtContent.Pairwise (fun a b => a.endTime + BLOCK_INTERVAL ≤ b.startTime)) :
    (∀ e ∈ (addBlock r t d).srtContent, e.startTime < e.endTime ∧
        e.endTime + BLOCK_INTERVAL ≤ (addBlock r t d).srtTime) ∧
      (addBlock r t d).srtContent.Pairwise
        (fun a b => a.endTime + BLOCK_INTERVAL ≤ b.startTime) := by
  obtain ⟨h1, h2⟩ := h
  constructor
  · intro e he
    simp only [addBlock, List.mem_append, List.mem_singleton] at he ⊢
    rcases he with he | rfl
    · have := h1 e he
      omega
    · simp only
      omega
  · simp only [addBlock]
    rw [List.pairwise_append]
    refine ⟨h2, List.pairwise_singleton _ _, ?_⟩
    intro a ha b hb
    rw [List.mem_singleton] at hb
    subst hb
    exact (h1 a ha).2

theorem processTopic_stamps (includeTitles : Bool) (len : Nat) (r : Run) (topic : Topic)
    (index : Nat)
    (h : (∀ e ∈ r.srtContent, e.startTime < e.endTime ∧
        e.endTime + BLOCK_INTERVAL ≤ r.srtTime) ∧
      r.srtContent.Pairwise (fun a b => a.endTime + BLOCK_INTERVAL ≤ b.startTime)) :
    (∀ e ∈ (processTopic includeTitles len r topic index).srtContent,
        e.startTime < e.endTime ∧
        e.endTime + BLOCK_INTERVAL ≤ (processTopic includeTitles len r topic index).srtTime) ∧
      (processTopic includeTitles len r topic index).srtContent.Pairwise
        (fun a b => a.endTime + BLOCK_INTERVAL ≤ b.startTime) := by
  have h2 := emitAll_induction
    (fun r => (∀ e ∈ r.srtContent, e.startTime < e.endTime ∧
        e.endTime + BLOCK_INTERVAL ≤ r.srtTime) ∧
      r.srtContent.Pairwise (fun a b => a.endTime + BLOCK_INTERVAL ≤ b.startTime))
    (topicEmits includeTitles topic)
    (fun r t d hm hr => addBlock_stamps r t d (by
      rcases topicEmits_duration includeTitles topic _ hm with h | h <;>
        simp only at h <;> rw [h] <;> decide) hr) r h
  rw [processTopic_eq]
  refine ⟨?_, h2.2⟩
  intro e he
  have := h2.1 e he
  refine ⟨this.1, ?_⟩
  simp only
  split_ifs
  · have := calculateNextTopicStart_ge (emitAll r (topicEmits includeTitles topic)).srtTime
    omega
  · exact this.2

/-- C8: every block ends after it starts, every block after the first starts at
least `BLOCK_INTERVAL` seconds after the end of the block before it (also across a
topic boundary), and so the start and end stamps strictly increase in emission
order. -/
theorem generateComplete_stamps (topics : List Topic) (includeTitles : Bool) :
    (∀ e ∈ (generateComplete topics includeTitles).1, e.startTime < e.endTime) ∧
    (generateComplete topics includeTitles).1.Chain'
      (fun a b => a.endTime + BLOCK_INTERVAL ≤ b.startTime) ∧
    (generateComplete topics includeTitles).1.Pairwise
      (fun a b => a.startTime < b.startTime ∧ a.endTime < b.endTime) := by
  have h := topicLoop_induction includeTitles topics.length
    (fun _ r => (∀ e ∈ r.srtContent, e.startTime < e.endTime ∧
        e.endTime + BLOCK_INTERVAL ≤ r.srtTime) ∧
      r.srtContent.Pairwise (fun a b => a.endTime + BLOCK_INTERVAL ≤ b.startTime))
    (fun i r t hr => processTopic_stamps includeTitles topics.length r t i hr)
    topics 0 Run.init (by simp [Run.init])
  obtain ⟨h1, h2⟩ := h
  refine ⟨fun e he => (h1 e he).1, h2.chain', ?_⟩
  refine List.Pairwise.imp_of_mem ?_ h2
  intro a b ha hb hab
  have ha1 := (h1 a ha).1
  have hb1 := (h1 b hb).1
  constructor <;> omega

/-! ### The two clocks -/

theorem processTopic_lag (includeTitles : Bool) (len : Nat) (r : Run) (topic : Topic)
    (index : Nat)
    (h : r.realTime + BLOCK_INTERVAL * r.srtContent.length +
      TOPIC_INTERVAL * min index (len - 1) ≤ r.srtTime) :
    (processTopic includeTitles len r topic index).realTime +
        BLOCK_INTERVAL * (processTopic includeTitles len r topic index).srtContent.length +
        TOPIC_INTERVAL * min (index + 1) (len - 1) ≤
      (processTopic includeTitles len r topic index).srtTime := by
  rw [processTopic_eq]
  simp only [emitAll_realTime, emitAll_length, emitAll_srtTime, Nat.mul_add]
  have hc := calculateNextTopicStart_ge
    (r.srtTime + ((topicEmits includeTitles topic).map Prod.snd).sum +
      BLOCK_INTERVAL * (topicEmits includeTitles topic).length)
  simp only [TOPIC_INTERVAL] at h ⊢
  split_ifs with hi
  · rw [Nat.min_eq_left (by omega)] at h ⊢
    omega
  · rw [Nat.min_eq_right (by omega)] at h ⊢
    omega

/-- The subtitle clock is ahead of the real clock by at least `BLOCK_INTERVAL` for
each block and `TOPIC_INTERVAL` for each topic but the last. -/
theorem generateCompleteRun_lag (topics : List Topic) (includeTitles : Bool) :
    (generateCompleteRun topics includeTitles).realTime +
        BLOCK_INTERVAL * (generateCompleteRun topics includeTitles).srtContent.length +
        TOPIC_INTERVAL * (topics.length - 1) ≤
      (generateCompleteRun topics includeTitles).srtTime := by
  have h := topicLoop_induction includeTitles topics.length
    (fun i r => r.realTime + BLOCK_INTERVAL * r.srtContent.length +
      TOPIC_INTERVAL * min i (topics.length - 1) ≤ r.srtTime)
    (fun i r t hr => processTopic_lag includeTitles topics.length r t i hr)
    topics 0 Run.init (by simp [Run.init])
  simp only [Nat.zero_add] at h
  rw [Nat.min_eq_right (by omega)] at h
  exact h

/-- C2: when the run processed more than one topic or emitted more than one block, the
final real clock is strictly less than the final subtitle clock, the paddings
`BLOCK_INTERVAL = 30` and `TOPIC_INTERVAL = 60` being positive. -/
theorem generateComplete_clocks (topics : List Topic) (includeTitles : Bool)
    (h : 1 < topics.length ∨ 1 < (generateComplete topics includeTitles).1.length) :
    BLOCK_INTERVAL = 30 ∧ TOPIC_INTERVAL = 60 ∧
    (generateCompleteRun topics includeTitles).realTime <
      (generateCompleteRun topics includeTitles).srtTime := by
  have hl := generateCompleteRun_lag topics includeTitles
  refine ⟨rfl, rfl, ?_⟩
  simp only [BLOCK_INTERVAL, TOPIC_INTERVAL, generateComplete] at hl h
  omega

/-- A run of two topics without content and without title blocks: no block is
emitted and the clocks end at `0` and `60`. -/
theorem generateComplete_clocks_witness :
    (1 < [Topic.mk 1 [] [], Topic.mk 2 [] []].length ∨
      1 < (generateComplete [Topic.mk 1 [] [], Topic.mk 2 [] []] false).1.length) ∧
    BLOCK_INTERVAL = 30 ∧ TOPIC_INTERVAL = 60 ∧
    (generateCompleteRun [Topic.mk 1 [] [], Topic.mk 2 [] []] false).realTime <
      (generateCompleteRun [Topic.mk 1 [] [], Topic.mk 2 [] []] false).srtTime :=
  ⟨Or.inl (by decide),
    generateComplete_clocks [Topic.mk 1 [] [], Topic.mk 2 [] []] false (Or.inl (by decide))⟩

/-! ## The segmentation loop -/

theorem foldl_segStep_induction (P : Nat → Seg → Prop) (ws : List Str)
    (hstep : ∀ k st w, w ∈ ws → P k st → P (k + 1) (segStep st w))
    (k : Nat) (st : Seg) (h : P k st) :
    P (k + ws.length) (ws.foldl segStep st) := by
  induction ws generalizing k st with
  | nil => exact h
  | cons w ws ih =>
    have := ih (fun k st w hw => hstep k st w (List.mem_cons_of_mem _ hw)) (k + 1) _
      (hstep k st w (List.mem_cons_self _ _) h)
    rw [List.length_cons, show k + (ws.length + 1) = k + 1 + ws.length by omega]
    exact this

/-- As long as no block was emitted the counter is the number of words processed, at
most `WORDS_PER_BLOCK`; and once a word was processed the buffer is not blank. -/
theorem segStep_progress (k : Nat) (st : Seg) (w : Str) (hw : IsWord w)
    (h : (st.run.srtContent = [] → st.wordsInBlock = k ∧ k ≤ WORDS_PER_BLOCK) ∧
      (1 ≤ k → ∃ c ∈ st.currentBlock, isWs c = false)) :
    ((segStep st w).run.srtContent = [] →
        (segStep st w).wordsInBlock = k + 1 ∧ k + 1 ≤ WORDS_PER_BLOCK) ∧
      (1 ≤ k + 1 → ∃ c ∈ (segStep st w).currentBlock, isWs c = false) := by
  obtain ⟨c, hc⟩ := List.exists_mem_of_ne_nil _ hw.1
  have hcw := hw.2 c hc
  unfold segStep
  split_ifs with h1
  · refine ⟨fun he => ?_, fun _ => ⟨c, by simp [hc], hcw⟩⟩
    obtain ⟨h2, _⟩ := h.1 he
    simp only
    omega
  · split
    · split_ifs
      · exact ⟨fun he => by simp [addBlock] at he, fun _ => ⟨c, by simp [hc], hcw⟩⟩
      · exact ⟨fun he => by simp [addBlock] at he, fun _ => ⟨c, by simp [hc], hcw⟩⟩
    · exact ⟨fun he => by simp [addBlock] at he, fun _ => ⟨c, by simp [hc], hcw⟩⟩

theorem contentBlocks_length (content : Str) :
    (contentBlocks content).length = (segment Run.init content).srtContent.length := by
  simp [contentBlocks]

/-- C7: a content without a period that has more than `WORDS_PER_BLOCK` words and more
than `CHARS_PER_BLOCK` characters gives more than one content block. The
segmentation is a fold over the finite list of words, so it always ends. -/
theorem contentBlocks_long (content : Str) (_hperiod : '.' ∉ content)
    (hwords : WORDS_PER_BLOCK < (wordsOf content).length)
    (_hchars : CHARS_PER_BLOCK < content.length) :
    ∃ blocks, contentBlocks content = blocks ∧ 1 < blocks.length := by
  refine ⟨_, rfl, ?_⟩
  have h := foldl_segStep_induction
    (fun k st => (st.run.srtContent = [] → st.wordsInBlock = k ∧ k ≤ WORDS_PER_BLOCK) ∧
      (1 ≤ k → ∃ c ∈ st.currentBlock, isWs c = false))
    (wordsOf content)
    (fun k st w hw hst => segStep_progress k st w (wordsOf_isWord content w hw) hst)
    0 ⟨Run.init, [], 0⟩ ⟨fun _ => ⟨rfl, Nat.zero_le _⟩, fun h => absurd h (by decide)⟩
  simp only [Nat.zero_add] at h
  obtain ⟨h1, h2⟩ := h
  obtain ⟨c, hc, hcw⟩ := h2 (by omega)
  have hne : (segLoop Run.init (wordsOf content)).run.srtContent ≠ [] := by
    intro he
    have := (h1 he).2
    omega
  have hpos : 0 < (segLoop Run.init (wordsOf content)).run.srtContent.length :=
    List.length_pos.2 hne
  have htrim : trim (segLoop Run.init (wordsOf content)).currentBlock ≠ [] :=
    trim_ne_nil_of_mem _ c hc hcw
  rw [contentBlocks_length]
  unfold segment
  simp only [htrim, ne_eq, not_false_eq_true, if_true]
  simp only [addBlock, List.length_append, List.length_singleton]
  omega

set_option maxRecDepth 100000

/-- A content of 101 words of four characters: 505 characters, no period. -/
theorem contentBlocks_long_witness :
    ('.' ∉ (List.replicate 101 ['a', 'a', 'a', 'a', ' ']).flatten ∧
      WORDS_PER_BLOCK < (wordsOf (List.replicate 101 ['a', 'a', 'a', 'a', ' ']).flatten).length ∧
      CHARS_PER_BLOCK < (List.replicate 101 ['a', 'a', 'a', 'a', ' ']).flatten.length) ∧
    ∃ blocks, contentBlocks (List.replicate 101 ['a', 'a', 'a', 'a', ' ']).flatten = blocks ∧
      1 < blocks.length :=
  ⟨by decide,
    contentBlocks_long (List.replicate 101 ['a', 'a', 'a', 'a', ' ']).flatten
      (by decide) (by decide) (by decide)⟩

/-! ### A content that fits in one block -/

theorem joinWords_cons_cons (w w2 : Str) (ws : List Str) :
    joinWords (w :: w2 :: ws) = w ++ [' '] ++ joinWords (w2 :: ws) := by
  simp [joinWords, List.intercalate, List.intersperse]

theorem joinWords_single (w : Str) : joinWords [w] = w := by
  simp [joinWords, List.intercalate, List.intersperse]

theorem bufferOf_cons (w : Str) (ws : List Str) :
    bufferOf (w :: ws) = w ++ [' '] ++ bufferOf ws := by
  simp [bufferOf]

theorem bufferOf_eq_joinWords (ws : List Str) (h : ws ≠ []) :
    bufferOf ws = joinWords ws ++ [' '] := by
  induction ws with
  | nil => exact absurd rfl h
  | cons w ws ih =>
    cases ws with
    | nil => simp [bufferOf, joinWords_single]
    | cons w2 ws =>
      rw [bufferOf_cons, ih (List.cons_ne_nil _ _), joinWords_cons_cons]
      simp

theorem joinWords_head (ws : List Str) (h : ws ≠ []) (hw : ∀ w ∈ ws, IsWord w) :
    ∃ c rest, joinWords ws = c :: rest ∧ isWs c = false := by
  cases ws with
  | nil => exact absurd rfl h
  | cons w ws =>
    obtain ⟨hne, hns⟩ := hw w (List.mem_cons_self _ _)
    cases w with
    | nil => exact absurd rfl hne
    | cons c w =>
      refine ⟨c, ?_, ?_, hns c (List.mem_cons_self _ _)⟩
      · exact (joinWords ((c :: w) :: ws)).tail
      · cases ws with
        | nil => simp [joinWords_single]
        | cons w2 ws => simp [joinWords_cons_cons]

theorem joinWords_last (ws : List Str) (h : ws ≠ []) (hw : ∀ w ∈ ws, IsWord w) :
    ∃ front c, joinWords ws = front ++ [c] ∧ isWs c = false := by
  induction ws with
  | nil => exact absurd rfl h
  | cons w ws ih =>
    cases ws with
    | nil =>
      obtain ⟨hne, hns⟩ := hw w (List.mem_cons_self _ _)
      refine ⟨w.dropLast, w.getLast hne, ?_, hns _ (List.getLast_mem hne)⟩
      rw [joinWords_single, List.dropLast_append_getLast]
    | cons w2 ws =>
      obtain ⟨front, c, hf, hc⟩ := ih (List.cons_ne_nil _ _)
        (fun x hx => hw x (List.mem_cons_of_mem _ hx))
      refine ⟨w ++ [' '] ++ front, c, ?_, hc⟩
      rw [joinWords_cons_cons, hf]
      simp

/-- The buffer of a list of words, trimmed, is the words joined by single spaces. -/
theorem trim_bufferOf (ws : List Str) (h : ws ≠ []) (hw : ∀ w ∈ ws, IsWord w) :
    trim (bufferOf ws) = joinWords ws := by
  obtain ⟨c, rest, h1, hc⟩ := joinWords_head ws h hw
  obtain ⟨front, d, h2, hd⟩ := joinWords_last ws h hw
  rw [bufferOf_eq_joinWords ws h, trim_eq_rdropWhile]
  have hdrop : (joinWords ws ++ [' ']).dropWhile isWs = joinWords ws ++ [' '] := by
    rw [h1, List.cons_append, List.dropWhile_cons_of_neg (by simp [hc])]
  rw [hdrop, List.rdropWhile_concat_pos _ _ _ (by decide), h2,
    List.rdropWhile_concat_neg _ _ _ (by simp [hd])]

/-- Words that fit are all appended to the buffer and no block is emitted. -/
theorem foldl_segStep_fits (ws : List Str) (r : Run) (b : Str) (n : Nat)
    (hn : n + ws.length ≤ WORDS_PER_BLOCK)
    (hb : ws ≠ [] → b.length + (bufferOf ws).length ≤ CHARS_PER_BLOCK + 1) :
    ws.foldl segStep ⟨r, b, n⟩ = ⟨r, b ++ bufferOf ws, n + ws.length⟩ := by
  induction ws generalizing b n with
  | nil => simp [bufferOf]
  | cons w ws ih =>
    have hb1 := hb (List.cons_ne_nil _ _)
    rw [bufferOf_cons] at hb1
    simp only [List.length_append, List.length_cons, List.length_singleton,
      List.length_nil] at hb1 hn
    have hstep : segStep ⟨r, b, n⟩ w = ⟨r, b ++ w ++ [' '], n + 1⟩ := by
      unfold segStep
      rw [if_pos ⟨by simp only; omega, by simp only; omega⟩]
    rw [List.foldl_cons, hstep, ih _ _ (by omega) (fun _ => by
      simp only [List.length_append, List.length_singleton]; omega)]
    simp [bufferOf_cons, Nat.add_assoc, Nat.add_comm 1]

theorem segment_fits (r : Run) (content : Str)
    (h1 : 1 ≤ (wordsOf content).length)
    (h2 : (wordsOf content).length ≤ WORDS_PER_BLOCK)
    (h3 : (joinWords (wordsOf content)).length ≤ CHARS_PER_BLOCK) :
    segment r content = addBlock r (joinWords (wordsOf content)) BLOCK_DURATION := by
  have hne : wordsOf content ≠ [] := List.length_pos.1 h1
  have hloop := foldl_segStep_fits (wordsOf content) r [] 0 (by omega) (fun _ => by
    rw [bufferOf_eq_joinWords _ hne]
    simp only [List.length_nil, List.length_append, List.length_singleton]
    omega)
  have htrim := trim_bufferOf (wordsOf content) hne (wordsOf_isWord content)
  obtain ⟨c, rest, hj, _⟩ := joinWords_head (wordsOf content) hne (wordsOf_isWord content)
  unfold segment segLoop
  simp only [hloop, List.nil_append, htrim]
  rw [if_pos (by rw [hj]; exact List.cons_ne_nil _ _)]

/-- C3: with the title flag on, a topic whose content has between 1 and
`WORDS_PER_BLOCK` words that, joined by single spaces, have at most `CHARS_PER_BLOCK`
characters gets exactly two blocks from any point of a run: the title block
"{number}. {title}..." and one content block with the words joined by single spaces.
`globalCounter` grows by 2, `srtTime` by 100 and `realTime` by 40, before the
alignment to the next topic. -/
theorem topicBlocks_short (r : Run) (topic : Topic)
    (h1 : 1 ≤ (wordsOf topic.content).length)
    (h2 : (wordsOf topic.content).length ≤ WORDS_PER_BLOCK)
    (h3 : (joinWords (wordsOf topic.content)).length ≤ CHARS_PER_BLOCK) :
    (topicBlocks true r topic).srtContent = r.srtContent ++
      [⟨r.globalCounter, r.srtTime, r.srtTime + TITLE_DURATION,
          Nat.toDigits 10 topic.number ++ ['.', ' '] ++ topic.title ++ ['.', '.', '.']⟩,
        ⟨r.globalCounter + 1, r.srtTime + (TITLE_DURATION + BLOCK_INTERVAL),
          r.srtTime + (TITLE_DURATION + BLOCK_INTERVAL) + BLOCK_DURATION,
          joinWords (wordsOf topic.content)⟩] ∧
    (topicBlocks true r topic).globalCounter = r.globalCounter + 2 ∧
    (topicBlocks true r topic).srtTime =
      r.srtTime + ((TITLE_DURATION + BLOCK_INTERVAL) + (BLOCK_DURATION + BLOCK_INTERVAL)) ∧
    (TITLE_DURATION + BLOCK_INTERVAL) + (BLOCK_DURATION + BLOCK_INTERVAL) = 100 ∧
    (topicBlocks true r topic).realTime = r.realTime + (TITLE_DURATION + BLOCK_DURATION) ∧
    TITLE_DURATION + BLOCK_DURATION = 40 ∧
    (topicBlocks true r topic).topicsData = r.topicsData := by
  unfold topicBlocks
  simp only [if_true, segment_fits _ _ h1 h2 h3]
  refine ⟨?_, ?_, ?_, rfl, ?_, rfl, rfl⟩
  · simp [addBlock, titleWithDots]
  · simp [addBlock]
  · simp [addBlock, Nat.add_assoc]
  · simp [addBlock, Nat.add_assoc]

/-- The topic `{1, "Intro", "Hello world. This is a test. "}` from the initial state. -/
theorem topicBlocks_short_witness :
    (1 ≤ (wordsOf (Topic.mk 1 "Intro".toList
        "Hello world. This is a test. ".toList).content).length ∧
      (wordsOf (Topic.mk 1 "Intro".toList
        "Hello world. This is a test. ".toList).content).length ≤ WORDS_PER_BLOCK ∧
      (joinWords (wordsOf (Topic.mk 1 "Intro".toList
        "Hello world. This is a test. ".toList).content)).length ≤ CHARS_PER_BLOCK) ∧
    (topicBlocks true Run.init (Topic.mk 1 "Intro".toList
        "Hello world. This is a test. ".toList)).srtContent =
      [⟨1, 0, 5, "1. Intro...".toList⟩, ⟨2, 35, 70, "Hello world. This is a test.".toList⟩] :=
  ⟨by decide,
    (topicBlocks_short Run.init (Topic.mk 1 "Intro".toList
      "Hello world. This is a test. ".toList) (by decide) (by decide) (by decide)).1⟩

/-! ### A first word longer than a block -/

/-- C6: for the topic whose content is one word of 501 characters the run emits two
content blocks, the first one with an empty text, and not the single block with the
word: the test on the length rejects the first word although the buffer is empty, and
the empty buffer is emitted without the test for a blank text that guards the last
block of a topic. -/
theorem generateComplete_long_word :
    contentBlocks (List.replicate 501 'a') = [[], List.replicate 501 'a'] ∧
    (generateComplete [Topic.mk 1 ['T'] (List.replicate 501 'a')] false).1 =
      [⟨1, 0, 35, []⟩, ⟨2, 65, 100, List.replicate 501 'a'⟩] := by
  decide

/-! ### The length of a content block -/

theorem mem_contentBlocks (content t : Str) (h : t ∈ contentBlocks content) :
    (∃ e ∈ (segLoop Run.init (wordsOf content)).run.srtContent, e.text = t) ∨
      t = trim (segLoop Run.init (wordsOf content)).currentBlock := by
  unfold contentBlocks segment at h
  simp only at h
  split_ifs at h
  · simp only [addBlock, List.map_append, List.map_cons, List.map_nil, List.mem_append,
      List.mem_map, List.mem_singleton] at h
    rcases h with h | h
    · exact Or.inl h
    · exact Or.inr h
  · exact Or.inl (List.mem_map.1 h)

/-- The texts of all the blocks of a run are the title block, when the flag is set, and
the content blocks of each topic, in order. -/
theorem generateComplete_texts (topics : List Topic) (includeTitles : Bool) :
    (generateComplete topics includeTitles).1.map Entry.text =
      topics.flatMap (fun t =>
        (if includeTitles then [titleWithDots t] else []) ++ contentBlocks t.content) := by
  have h0 : (generateComplete topics includeTitles).1.map
      (fun e => (e.text, e.endTime - e.startTime)) =
      topics.flatMap (topicEmits includeTitles) := by
    simp [generateComplete, generateCompleteRun, topicLoop_calls, Run.init]
  have h := congrArg (List.map Prod.fst) h0
  simp only [List.map_map, Function.comp_def, List.map_flatMap] at h
  rw [h]
  congr 1
  funext t
  cases includeTitles <;> simp [topicEmits, Function.comp_def]

theorem segStep_chars (st : Seg) (w : Str) (hw : w.length ≤ CHARS_PER_BLOCK)
    (h : EndsWs st.currentBlock ∧ st.currentBlock.length ≤ 2 * CHARS_PER_BLOCK + 1 ∧
      (∀ p, lastIndexOf '.' st.currentBlock = some p →
        st.currentBlock.length ≤ p + 1 + CHARS_PER_BLOCK) ∧
      ∀ e ∈ st.run.srtContent, e.text.length ≤ 2 * CHARS_PER_BLOCK) :
    EndsWs (segStep st w).currentBlock ∧
      (segStep st w).currentBlock.length ≤ 2 * CHARS_PER_BLOCK + 1 ∧
      (∀ p, lastIndexOf '.' (segStep st w).currentBlock = some p →
        (segStep st w).currentBlock.length ≤ p + 1 + CHARS_PER_BLOCK) ∧
      ∀ e ∈ (segStep st w).run.srtContent, e.text.length ≤ 2 * CHARS_PER_BLOCK := by
  obtain ⟨hends, hlen, hrem, htexts⟩ := h
  have hwhole : (trim st.currentBlock).length ≤ 2 * CHARS_PER_BLOCK := by
    have := EndsWs.length_trim _ hends
    omega
  have hrestart : EndsWs (w ++ [' ']) ∧ (w ++ [' ']).length ≤ 2 * CHARS_PER_BLOCK + 1 ∧
      (∀ p, lastIndexOf '.' (w ++ [' ']) = some p →
        (w ++ [' ']).length ≤ p + 1 + CHARS_PER_BLOCK) ∧
      ∀ e ∈ (addBlock st.run (trim st.currentBlock) BLOCK_DURATION).srtContent,
        e.text.length ≤ 2 * CHARS_PER_BLOCK := by
    refine ⟨EndsWs.concat _, ?_, ?_, ?_⟩
    · simp only [List.length_append, List.length_singleton]; omega
    · intro p _
      simp only [List.length_append, List.length_singleton]; omega
    · intro e he
      simp only [addBlock, List.mem_append, List.mem_singleton] at he
      rcases he with he | rfl
      · exact htexts e he
      · exact hwhole
  unfold segStep
  split_ifs with h1
  · refine ⟨EndsWs.concat _, ?_, ?_, htexts⟩
    · simp only [List.length_append, List.length_singleton]; omega
    · intro p _
      simp only [List.length_append, List.length_singleton]; omega
  · split
    · rename_i lastPeriod hlast
      split_ifs with h2
      · have hlt := lastIndexOf_lt _ _ _ hlast
        have hr := hrem _ hlast
        refine ⟨EndsWs.concat _, ?_, ?_, ?_⟩
        · simp only [List.length_append, List.length_singleton, List.length_drop]; omega
        · intro q hq
          simp only at hq
          rw [List.append_assoc] at hq
          have := lastIndexOf_append_ge _ _ _ _ (lastIndexOf_drop _ _ _ hlast) hq
          simp only [List.length_drop] at this
          simp only [List.length_append, List.length_singleton, List.length_drop]
          omega
        · intro e he
          simp only [addBlock, List.mem_append, List.mem_singleton] at he
          rcases he with he | rfl
          · exact htexts e he
          · have h3 := length_trim_le (st.currentBlock.take (lastPeriod + 1))
            simp only [List.length_take] at h3
            simp only
            omega
      · exact hrestart
    · exact hrestart

theorem segStep_chars_plain (st : Seg) (w : Str) (hw : w.length ≤ CHARS_PER_BLOCK)
    (hp : '.' ∉ w)
    (h : '.' ∉ st.currentBlock ∧ EndsWs st.currentBlock ∧
      st.currentBlock.length ≤ CHARS_PER_BLOCK + 1 ∧
      ∀ e ∈ st.run.srtContent, e.text.length ≤ CHARS_PER_BLOCK) :
    '.' ∉ (segStep st w).currentBlock ∧ EndsWs (segStep st w).currentBlock ∧
      (segStep st w).currentBlock.length ≤ CHARS_PER_BLOCK + 1 ∧
      ∀ e ∈ (segStep st w).run.srtContent, e.text.length ≤ CHARS_PER_BLOCK := by
  obtain ⟨hno, hends, hlen, htexts⟩ := h
  have hnone := (lastIndexOf_eq_none_iff '.' st.currentBlock).2 hno
  unfold segStep
  rw [hnone]
  split_ifs with h1
  · refine ⟨?_, EndsWs.concat _, ?_, htexts⟩
    · simp [hno, hp]
    · simp only [List.length_append, List.length_singleton]; omega
  · refine ⟨?_, EndsWs.concat _, ?_, ?_⟩
    · simp [hp]
    · simp only [List.length_append, List.length_singleton]; omega
    · intro e he
      simp only [addBlock, List.mem_append, List.mem_singleton] at he
      rcases he with he | rfl
      · exact htexts e he
      · have := EndsWs.length_trim _ hends
        simp only
        omega

theorem contentBlocks_chars (content : Str)
    (hw : ∀ w ∈ wordsOf content, w.length ≤ CHARS_PER_BLOCK) :
    (∀ t ∈ contentBlocks content, t.length ≤ 2 * CHARS_PER_BLOCK) ∧
    ('.' ∉ content → ∀ t ∈ contentBlocks content, t.length ≤ CHARS_PER_BLOCK) := by
  constructor
  · have h := foldl_segStep_induction
      (fun _ st => EndsWs st.currentBlock ∧ st.currentBlock.length ≤ 2 * CHARS_PER_BLOCK + 1 ∧
        (∀ p, lastIndexOf '.' st.currentBlock = some p →
          st.currentBlock.length ≤ p + 1 + CHARS_PER_BLOCK) ∧
        ∀ e ∈ st.run.srtContent, e.text.length ≤ 2 * CHARS_PER_BLOCK)
      (wordsOf content) (fun _ st w hm hst => segStep_chars st w (hw w hm) hst)
      0 ⟨Run.init, [], 0⟩
      ⟨Or.inl rfl, by simp, fun p hp => by simp [lastIndexOf] at hp, by simp [Run.init]⟩
    obtain ⟨h1, h2, _, h4⟩ := h
    intro t ht
    rcases mem_contentBlocks content t ht with ⟨e, he, rfl⟩ | rfl
    · exact h4 e he
    · have := EndsWs.length_trim _ h1
      unfold segLoop
      omega
  · intro hno
    have h := foldl_segStep_induction
      (fun _ st => '.' ∉ st.currentBlock ∧ EndsWs st.currentBlock ∧
        st.currentBlock.length ≤ CHARS_PER_BLOCK + 1 ∧
        ∀ e ∈ st.run.srtContent, e.text.length ≤ CHARS_PER_BLOCK)
      (wordsOf content)
      (fun _ st w hm hst => segStep_chars_plain st w (hw w hm)
        (fun hc => hno (wordsOf_subset content w hm _ hc)) hst)
      0 ⟨Run.init, [], 0⟩
      ⟨by simp, Or.inl rfl, by simp, by simp [Run.init]⟩
    obtain ⟨_, h1, h2, h4⟩ := h
    intro t ht
    rcases mem_contentBlocks content t ht with ⟨e, he, rfl⟩ | rfl
    · exact h4 e he
    · have := EndsWs.length_trim _ h1
      unfold segLoop
      omega

/-- The bound on the length that the loop does keep: when every word of every topic is
at most `CHARS_PER_BLOCK` characters long, every content block has at most
`2 * CHARS_PER_BLOCK` characters, and at most `CHARS_PER_BLOCK` characters when the
content of its topic has no period. The content blocks are the blocks of the run other
than the title blocks. -/
theorem generateComplete_block_chars (topics : List Topic) (includeTitles : Bool)
    (hw : ∀ topic ∈ topics, ∀ w ∈ wordsOf topic.content, w.length ≤ CHARS_PER_BLOCK) :
    (generateComplete topics includeTitles).1.map Entry.text =
      topics.flatMap (fun t =>
        (if includeTitles then [titleWithDots t] else []) ++ contentBlocks t.content) ∧
    ∀ topic ∈ topics,
      (∀ t ∈ contentBlocks topic.content, t.length ≤ 2 * CHARS_PER_BLOCK) ∧
      ('.' ∉ topic.content → ∀ t ∈ contentBlocks topic.content, t.length ≤ CHARS_PER_BLOCK) :=
  ⟨generateComplete_texts topics includeTitles,
    fun topic ht => contentBlocks_chars topic.content (hw topic ht)⟩

/-- The topic with the content `carriedContent`: its words have 2, 400 and 200
characters and its blocks at most 1000. -/
theorem generateComplete_block_chars_witness :
    (∀ topic ∈ [Topic.mk 1 ['T'] carriedContent],
      ∀ w ∈ wordsOf topic.content, w.length ≤ CHARS_PER_BLOCK) ∧
    ∀ t ∈ contentBlocks carriedContent, t.length ≤ 2 * CHARS_PER_BLOCK :=
  ⟨by decide,
    ((generateComplete_block_chars [Topic.mk 1 ['T'] carriedContent] false (by decide)).2
      (Topic.mk 1 ['T'] carriedContent) (List.mem_singleton.2 rfl)).1⟩

/-- C4: every word of `carriedContent` is at most `CHARS_PER_BLOCK` characters long and
yet its second content block has 601 characters, more than the maximum of
`CHARS_PER_BLOCK`: the remainder after "a." is carried into the next buffer and the
pending word is appended to it without the test on the length. -/
theorem generateComplete_carried_chars :
    (∀ w ∈ wordsOf carriedContent, w.length ≤ CHARS_PER_BLOCK) ∧
    (generateComplete [Topic.mk 1 ['T'] carriedContent] false).1.map
      (fun e => e.text.length) = [2, 601] ∧
    ¬ (∀ t ∈ contentBlocks carriedContent, t.length ≤ CHARS_PER_BLOCK) := by
  decide

/-! ### The number of words of a content block -/

theorem segStep_words (st : Seg) (w : Str) (hw : IsWord w)
    (h : EndsWs st.currentBlock ∧ countWords true st.currentBlock ≤ st.wordsInBlock ∧
      countWords true st.currentBlock ≤ WORDS_PER_BLOCK + 1 ∧
      (∀ p, lastIndexOf '.' st.currentBlock = some p →
        countWords true (st.currentBlock.drop (p + 1)) ≤ WORDS_PER_BLOCK) ∧
      ∀ e ∈ st.run.srtContent, countWords true e.text ≤ WORDS_PER_BLOCK + 1) :
    EndsWs (segStep st w).currentBlock ∧
      countWords true (segStep st w).currentBlock ≤ (segStep st w).wordsInBlock ∧
      countWords true (segStep st w).currentBlock ≤ WORDS_PER_BLOCK + 1 ∧
      (∀ p, lastIndexOf '.' (segStep st w).currentBlock = some p →
        countWords true ((segStep st w).currentBlock.drop (p + 1)) ≤ WORDS_PER_BLOCK) ∧
      ∀ e ∈ (segStep st w).run.srtContent, countWords true e.text ≤ WORDS_PER_BLOCK + 1 := by
  obtain ⟨hends, hcnt, hmax, hrem, htexts⟩ := h
  have hW : WORDS_PER_BLOCK = 100 := rfl
  have hone : countWords true (w ++ [' ']) = 1 := by
    have := countWords_push [] w (Or.inl rfl) hw
    simpa [countWords] using this
  have hrestart : EndsWs (w ++ [' ']) ∧ countWords true (w ++ [' ']) ≤ 1 ∧
      countWords true (w ++ [' ']) ≤ WORDS_PER_BLOCK + 1 ∧
      (∀ p, lastIndexOf '.' (w ++ [' ']) = some p →
        countWords true ((w ++ [' ']).drop (p + 1)) ≤ WORDS_PER_BLOCK) ∧
      ∀ e ∈ (addBlock st.run (trim st.currentBlock) BLOCK_DURATION).srtContent,
        countWords true e.text ≤ WORDS_PER_BLOCK + 1 := by
    refine ⟨EndsWs.concat _, by omega, by omega, ?_, ?_⟩
    · intro p _
      have := countWords_drop_le (p + 1) (w ++ [' '])
      omega
    · intro e he
      simp only [addBlock, List.mem_append, List.mem_singleton] at he
      rcases he with he | rfl
      · exact htexts e he
      · simp only [countWords_trim]
        exact hmax
  unfold segStep
  split_ifs with h1
  · have hpush := countWords_push st.currentBlock w hends hw
    refine ⟨EndsWs.concat _, ?_, ?_, ?_, htexts⟩
    · simp only [hpush]; omega
    · simp only [hpush]; omega
    · intro p _
      have := countWords_drop_le (p + 1) (st.currentBlock ++ w ++ [' '])
      simp only
      omega
  · split
    · rename_i lastPeriod hlast
      split_ifs with h2
      · have hr := hrem _ hlast
        have hpush := countWords_push (st.currentBlock.drop (lastPeriod + 1)) w
          (EndsWs.drop _ _ hends) hw
        refine ⟨EndsWs.concat _, ?_, ?_, ?_, ?_⟩
        · have := countWords_le_splitWs (st.currentBlock.drop (lastPeriod + 1))
          simp only [hpush]
          omega
        · simp only [hpush]; omega
        · intro q hq
          simp only at hq
          rw [List.append_assoc] at hq
          have hge := lastIndexOf_append_ge _ _ _ _ (lastIndexOf_drop _ _ _ hlast) hq
          simp only
          rw [List.append_assoc, List.drop_append_eq_append_drop,
            List.drop_eq_nil_of_le (by omega), List.nil_append]
          have := countWords_drop_le
            (q + 1 - (st.currentBlock.drop (lastPeriod + 1)).length) (w ++ [' '])
          omega
        · intro e he
          simp only [addBlock, List.mem_append, List.mem_singleton] at he
          rcases he with he | rfl
          · exact htexts e he
          · have := countWords_take_le true (lastPeriod + 1) st.currentBlock
            simp only [countWords_trim]
            omega
      · exact hrestart
    · exact hrestart

theorem segStep_words_plain (st : Seg) (w : Str) (hw : IsWord w) (hp : '.' ∉ w)
    (h : '.' ∉ st.currentBlock ∧ EndsWs st.currentBlock ∧
      countWords true st.currentBlock ≤ st.wordsInBlock ∧
      st.wordsInBlock ≤ WORDS_PER_BLOCK ∧
      ∀ e ∈ st.run.srtContent, countWords true e.text ≤ WORDS_PER_BLOCK) :
    '.' ∉ (segStep st w).currentBlock ∧ EndsWs (segStep st w).currentBlock ∧
      countWords true (segStep st w).currentBlock ≤ (segStep st w).wordsInBlock ∧
      (segStep st w).wordsInBlock ≤ WORDS_PER_BLOCK ∧
      ∀ e ∈ (segStep st w).run.srtContent, countWords true e.text ≤ WORDS_PER_BLOCK := by
  obtain ⟨hno, hends, hcnt, hmax, htexts⟩ := h
  have hW : WORDS_PER_BLOCK = 100 := rfl
  have hnone := (lastIndexOf_eq_none_iff '.' st.currentBlock).2 hno
  unfold segStep
  rw [hnone]
  split_ifs with h1
  · have hpush := countWords_push st.currentBlock w hends hw
    refine ⟨?_, EndsWs.concat _, ?_, ?_, htexts⟩
    · simp [hno, hp]
    · simp only [hpush]; omega
    · simp only; omega
  · have hone : countWords true (w ++ [' ']) = 1 := by
      have := countWords_push [] w (Or.inl rfl) hw
      simpa [countWords] using this
    refine ⟨?_, EndsWs.concat _, ?_, ?_, ?_⟩
    · simp [hp]
    · simp only [hone]; omega
    · simp only; omega
    · intro e he
      simp only [addBlock, List.mem_append, List.mem_singleton] at he
      rcases he with he | rfl
      · exact htexts e he
      · simp only [countWords_trim]
        omega

theorem contentBlocks_words (content : Str) :
    (∀ t ∈ contentBlocks content, (wordsOf t).length ≤ WORDS_PER_BLOCK + 1) ∧
    ('.' ∉ content → ∀ t ∈ contentBlocks content, (wordsOf t).length ≤ WORDS_PER_BLOCK) := by
  constructor
  · have h := foldl_segStep_induction
      (fun _ st => EndsWs st.currentBlock ∧
        countWords true st.currentBlock ≤ st.wordsInBlock ∧
        countWords true st.currentBlock ≤ WORDS_PER_BLOCK + 1 ∧
        (∀ p, lastIndexOf '.' st.currentBlock = some p →
          countWords true (st.currentBlock.drop (p + 1)) ≤ WORDS_PER_BLOCK) ∧
        ∀ e ∈ st.run.srtContent, countWords true e.text ≤ WORDS_PER_BLOCK + 1)
      (wordsOf content)
      (fun _ st w hm hst => segStep_words st w (wordsOf_isWord content w hm) hst)
      0 ⟨Run.init, [], 0⟩
      ⟨Or.inl rfl, by simp [countWords], by simp [countWords],
        fun p hp => by simp [lastIndexOf] at hp, by simp [Run.init]⟩
    obtain ⟨_, _, h3, _, h5⟩ := h
    intro t ht
    rw [length_wordsOf]
    rcases mem_contentBlocks content t ht with ⟨e, he, rfl⟩ | rfl
    · exact h5 e he
    · rw [countWords_trim]
      exact h3
  · intro hno
    have h := foldl_segStep_induction
      (fun _ st => '.' ∉ st.currentBlock ∧ EndsWs st.currentBlock ∧
        countWords true st.currentBlock ≤ st.wordsInBlock ∧
        st.wordsInBlock ≤ WORDS_PER_BLOCK ∧
        ∀ e ∈ st.run.srtContent, countWords true e.text ≤ WORDS_PER_BLOCK)
      (wordsOf content)
      (fun _ st w hm hst => segStep_words_plain st w (wordsOf_isWord content w hm)
        (fun hc => hno (wordsOf_subset content w hm _ hc)) hst)
      0 ⟨Run.init, [], 0⟩
      ⟨by simp, Or.inl rfl, by simp [countWords], by simp, by simp [Run.init]⟩
    obtain ⟨_, _, h3, h4, h5⟩ := h
    intro t ht
    rw [length_wordsOf]
    rcases mem_contentBlocks content t ht with ⟨e, he, rfl⟩ | rfl
    · exact h5 e he
    · rw [countWords_trim]
      exact h3.trans h4

/-- The bound on the number of words that the loop does keep: every content block has
at most `WORDS_PER_BLOCK + 1` words, and at most `WORDS_PER_BLOCK` words when the
content of its topic has no period. The content blocks are the blocks of the run other
than the title blocks. -/
theorem generateComplete_block_words (topics : List Topic) (includeTitles : Bool) :
    (generateComplete topics includeTitles).1.map Entry.text =
      topics.flatMap (fun t =>
        (if includeTitles then [titleWithDots t] else []) ++ contentBlocks t.content) ∧
    ∀ topic ∈ topics,
      (∀ t ∈ contentBlocks topic.content, (wordsOf t).length ≤ WORDS_PER_BLOCK + 1) ∧
      ('.' ∉ topic.content →
        ∀ t ∈ contentBlocks topic.content, (wordsOf t).length ≤ WORDS_PER_BLOCK) :=
  ⟨generateComplete_texts topics includeTitles,
    fun topic _ => contentBlocks_words topic.content⟩

/-- The topic with the content `crowdedContent`: its blocks have at most 101 words. -/
theorem generateComplete_block_words_witness :
    Topic.mk 1 ['T'] crowdedContent ∈ [Topic.mk 1 ['T'] crowdedContent] ∧
    ∀ t ∈ contentBlocks crowdedContent, (wordsOf t).length ≤ WORDS_PER_BLOCK + 1 :=
  ⟨List.mem_singleton.2 rfl,
    ((generateComplete_block_words [Topic.mk 1 ['T'] crowdedContent] false).2
      (Topic.mk 1 ['T'] crowdedContent) (List.mem_singleton.2 rfl)).1⟩

/-- C5: the second content block of `crowdedContent` has 101 words, more than the
maximum of `WORDS_PER_BLOCK`: the remainder after "a." holds 100 words and the pending
word is appended to it without the test on the number of words. -/
theorem generateComplete_carried_words :
    (generateComplete [Topic.mk 1 ['T'] crowdedContent] false).1.map
      (fun e => (wordsOf e.text).length) = [1, 101] ∧
    ¬ (∀ t ∈ contentBlocks crowdedContent, (wordsOf t).length ≤ WORDS_PER_BLOCK) := by
  decide

end SRTGenerator

/-! ## `secondsToComponents` -/

namespace TimestampUtils

theorem floor_div_pos (s : ℚ) (n : ℤ) (hn : 0 < n) : ⌊s / (n : ℚ)⌋ = ⌊s⌋ / n := by
  have hn' : (0 : ℚ) < n := by exact_mod_cast hn
  have hq : ((⌊s⌋ : ℤ) : ℚ) = n * ((⌊s⌋ / n : ℤ) : ℚ) + ((⌊s⌋ % n : ℤ) : ℚ) := by
    exact_mod_cast (Int.ediv_add_emod ⌊s⌋ n).symm
  have hr0 : (0 : ℚ) ≤ ((⌊s⌋ % n : ℤ) : ℚ) := by
    exact_mod_cast Int.emod_nonneg _ hn.ne'
  have hr1 : ((⌊s⌋ % n : ℤ) : ℚ) + 1 ≤ n := by
    exact_mod_cast Int.emod_lt_of_pos _ hn
  have h1 := Int.floor_le s
  have h2 := Int.lt_floor_add_one s
  rw [Int.floor_eq_iff, le_div_iff₀ hn', div_lt_iff₀ hn']
  constructor <;> nlinarith

theorem jsRem_of_nonneg (x m : ℚ) (hx : 0 ≤ x) (hm : 0 < m) : jsRem x m = floorMod x m := by
  unfold jsRem floorMod
  rw [if_pos (div_nonneg hx hm.le)]

/-- The components of a non-negative number of seconds, from its integer part. -/
theorem secondsToComponents_floor (s : ℚ) (hs : 0 ≤ s) :
    secondsToComponents s =
      ⟨⌊s⌋ / 3600, ⌊s⌋ % 3600 / 60, ⌊s⌋ % 60, ⌊(s - (⌊s⌋ : ℚ)) * 1000⌋⟩ := by
  have h3600 : ⌊s / 3600⌋ = ⌊s⌋ / 3600 := by
    simpa using floor_div_pos s 3600 (by norm_num)
  have h60 : ⌊s / 60⌋ = ⌊s⌋ / 60 := by
    simpa using floor_div_pos s 60 (by norm_num)
  have hmin : ⌊(s - 3600 * ((⌊s⌋ / 3600 : ℤ) : ℚ)) / 60⌋ = ⌊s⌋ % 3600 / 60 := by
    have e : (s - 3600 * ((⌊s⌋ / 3600 : ℤ) : ℚ)) / 60 =
        s / 60 - ((60 * (⌊s⌋ / 3600) : ℤ) : ℚ) := by
      push_cast; ring
    rw [e, Int.floor_sub_int, h60]
    omega
  have hsec : ⌊s - 60 * ((⌊s⌋ / 60 : ℤ) : ℚ)⌋ = ⌊s⌋ % 60 := by
    have e : s - 60 * ((⌊s⌋ / 60 : ℤ) : ℚ) = s - ((60 * (⌊s⌋ / 60) : ℤ) : ℚ) := by
      push_cast; ring
    rw [e, Int.floor_sub_int]
    omega
  unfold secondsToComponents
  rw [jsRem_of_nonneg s 3600 hs (by norm_num), jsRem_of_nonneg s 60 hs (by norm_num),
    jsRem_of_nonneg s 1 hs (by norm_num)]
  unfold floorMod
  rw [h3600, h60, hmin, hsec]
  simp

theorem secondsToComponents_natCast (n : ℕ) :
    secondsToComponents (n : ℚ) =
      ⟨((n / 3600 : ℕ) : ℤ), ((n % 3600 / 60 : ℕ) : ℤ), ((n % 60 : ℕ) : ℤ), 0⟩ := by
  rw [secondsToComponents_floor _ (Nat.cast_nonneg n)]
  simp

/-- In exact arithmetic, for a non-negative rational number of seconds the components
are `floor(s/3600)`, `floor((s mod 3600)/60)`, `floor(s mod 60)` and
`floor((s mod 1) * 1000)`; minutes and seconds lie in `[0, 60)`, milliseconds in
`[0, 1000)`, and `hours*3600 + minutes*60 + seconds` is `floor(s)`. For an integer
they are the quotients and remainders of the integer division. -/
theorem secondsToComponents_spec (s : ℚ) (hs : 0 ≤ s) :
    (secondsToComponents s).hours = ⌊s / 3600⌋ ∧
    (secondsToComponents s).minutes = ⌊floorMod s 3600 / 60⌋ ∧
    (secondsToComponents s).seconds = ⌊floorMod s 60⌋ ∧
    (secondsToComponents s).milliseconds = ⌊floorMod s 1 * 1000⌋ ∧
    0 ≤ (secondsToComponents s).hours ∧
    0 ≤ (secondsToComponents s).minutes ∧ (secondsToComponents s).minutes < 60 ∧
    0 ≤ (secondsToComponents s).seconds ∧ (secondsToComponents s).seconds < 60 ∧
    0 ≤ (secondsToComponents s).milliseconds ∧
    (secondsToComponents s).milliseconds < 1000 ∧
    (secondsToComponents s).hours * 3600 + (secondsToComponents s).minutes * 60 +
      (secondsToComponents s).seconds = ⌊s⌋ ∧
    ∀ n : ℕ, secondsToComponents (n : ℚ) =
      ⟨((n / 3600 : ℕ) : ℤ), ((n % 3600 / 60 : ℕ) : ℤ), ((n % 60 : ℕ) : ℤ), 0⟩ := by
  have hdef : secondsToComponents s =
      ⟨⌊s / 3600⌋, ⌊floorMod s 3600 / 60⌋, ⌊floorMod s 60⌋, ⌊floorMod s 1 * 1000⌋⟩ := by
    unfold secondsToComponents
    rw [jsRem_of_nonneg s 3600 hs (by norm_num), jsRem_of_nonneg s 60 hs (by norm_num),
      jsRem_of_nonneg s 1 hs (by norm_num)]
  have hfl := secondsToComponents_floor s hs
  have hq : 0 ≤ ⌊s⌋ := Int.floor_nonneg.2 hs
  have hf0 : 0 ≤ s - (⌊s⌋ : ℚ) := by have := Int.floor_le s; linarith
  have hf1 : s - (⌊s⌋ : ℚ) < 1 := by have := Int.lt_floor_add_one s; linarith
  have hms0 : 0 ≤ ⌊(s - (⌊s⌋ : ℚ)) * 1000⌋ := Int.floor_nonneg.2 (by positivity)
  have hms1 : ⌊(s - (⌊s⌋ : ℚ)) * 1000⌋ < 1000 := by
    rw [Int.floor_lt]
    push_cast
    linarith
  refine ⟨by rw [hdef], by rw [hdef], by rw [hdef], by rw [hdef], ?_, ?_, ?_, ?_, ?_, ?_, ?_,
    ?_, secondsToComponents_natCast⟩
  all_goals rw [hfl]
  all_goals simp only
  all_goals omega

/-- The components of 7325 seconds and a half. -/
theorem secondsToComponents_spec_witness :
    (0 : ℚ) ≤ 14651 / 2 ∧
    (secondsToComponents (14651 / 2)).hours * 3600 +
      (secondsToComponents (14651 / 2)).minutes * 60 +
      (secondsToComponents (14651 / 2)).seconds = ⌊(14651 / 2 : ℚ)⌋ :=
  ⟨by norm_num, (secondsToComponents_spec (14651 / 2) (by norm_num)).2.2.2.2.2.2.2.2.2.2.2.1⟩

/-! ## `formatForSRT` and `formatSimple` -/

set_option maxRecDepth 100000

theorem pad_two (n : Nat) (h : n < 100) :
    pad (n : ℤ) 2 = twoDigits n ∧ isDigit (Nat.digitChar (n / 10)) = true ∧
      isDigit (Nat.digitChar (n % 10)) = true := by
  revert n
  decide

theorem pad_three (n : Nat) (h : n < 1000) :
    pad (n : ℤ) 3 = threeDigits n ∧ isDigit (Nat.digitChar (n / 100)) = true ∧
      isDigit (Nat.digitChar (n / 10 % 10)) = true ∧
      isDigit (Nat.digitChar (n % 10)) = true := by
  revert n
  decide

theorem numToString_natCast (n : ℕ) : numToString (n : ℤ) = Nat.toDigits 10 n := by
  unfold numToString
  rw [if_neg (by omega)]
  simp

theorem toDigitsCore_length_ge (b f n : Nat) (ds : List Char) :
    ds.length + 1 ≤ (Nat.toDigitsCore b (f + 1) n ds).length := by
  induction f generalizing n ds with
  | zero =>
    unfold Nat.toDigitsCore
    simp only
    split_ifs
    · simp
    · simp [Nat.toDigitsCore]
  | succ f ih =>
    unfold Nat.toDigitsCore
    simp only
    split_ifs
    · simp
    · have := ih (n / b) (Nat.digitChar (n % b) :: ds)
      simp only [List.length_cons] at this
      omega

theorem toDigits_length_ge (n : Nat) (h : 100 ≤ n) : 3 ≤ (Nat.toDigits 10 n).length := by
  obtain ⟨m, rfl⟩ : ∃ m, n = m + 2 := ⟨n - 2, by omega⟩
  unfold Nat.toDigits
  rw [show m + 2 + 1 = (m + 2) + 1 from rfl]
  unfold Nat.toDigitsCore
  simp only
  rw [if_neg (by omega)]
  unfold Nat.toDigitsCore
  simp only
  rw [if_neg (by omega)]
  have := toDigitsCore_length_ge 10 m ((m + 2) / 10 / 10)
    [Nat.digitChar ((m + 2) / 10 % 10), Nat.digitChar ((m + 2) % 10)]
  simpa using this

/-- The result of `formatForSRT` for a number of seconds with integer part `k` and `j`
whole milliseconds after it. -/
theorem formatForSRT_eq (x : ℚ) (h0 : 0 ≤ x) :
    ∃ k j : ℕ, ⌊x⌋ = (k : ℤ) ∧ j < 1000 ∧
      formatForSRT x = pad ((k / 3600 : ℕ) : ℤ) 2 ++ [':'] ++
        pad ((k % 3600 / 60 : ℕ) : ℤ) 2 ++ [':'] ++ pad ((k % 60 : ℕ) : ℤ) 2 ++ [','] ++
        pad (j : ℤ) 3 := by
  obtain ⟨k, hk⟩ := Int.eq_ofNat_of_zero_le (Int.floor_nonneg.2 h0)
  have hf0 : 0 ≤ x - (⌊x⌋ : ℚ) := by have := Int.floor_le x; linarith
  have hf1 : x - (⌊x⌋ : ℚ) < 1 := by have := Int.lt_floor_add_one x; linarith
  obtain ⟨j, hj⟩ := Int.eq_ofNat_of_zero_le
    (Int.floor_nonneg.2 (show 0 ≤ (x - (⌊x⌋ : ℚ)) * 1000 by positivity))
  have hj1 : ⌊(x - (⌊x⌋ : ℚ)) * 1000⌋ < 1000 := by
    rw [Int.floor_lt]
    push_cast
    linarith
  refine ⟨k, j, hk, by omega, ?_⟩
  unfold formatForSRT
  rw [secondsToComponents_floor x h0]
  simp only [hj]
  simp only [hk]
  norm_cast

/-- C11, as amended: for a non-negative number of seconds below 360000 (100 hours) the
result of `formatForSRT` matches `HH:MM:SS,mmm` exactly, 12 characters with fields of
2, 2, 2 and 3 digits; from 360000 seconds on the hours take three digits or more and
the result is longer than 12 characters. -/
theorem formatForSRT_pattern (x : ℚ) (h0 : 0 ≤ x) :
    (x < 360000 → matchesSRT (formatForSRT x) = true ∧ (formatForSRT x).length = 12) ∧
    (360000 ≤ x → matchesSRT (formatForSRT x) = false ∧ 12 < (formatForSRT x).length) := by
  obtain ⟨k, j, hk, hj, heq⟩ := formatForSRT_eq x h0
  have hmin := pad_two (k % 3600 / 60) (by omega)
  have hsec := pad_two (k % 60) (by omega)
  have hms := pad_three j hj
  constructor
  · intro hx
    have hk1 : k < 360000 := by
      have h1 : (⌊x⌋ : ℚ) ≤ x := Int.floor_le x
      have h2 : ((k : ℤ) : ℚ) < 360000 := by rw [← hk]; linarith
      exact_mod_cast h2
    have hh := pad_two (k / 3600) (by omega)
    rw [heq, hh.1, hmin.1, hsec.1, hms.1]
    simp [matchesSRT, twoDigits, threeDigits, hh.2.1, hh.2.2, hmin.2.1, hmin.2.2, hsec.2.1,
      hsec.2.2, hms.2.1, hms.2.2.1, hms.2.2.2]
  · intro hx
    have hk1 : 360000 ≤ k := by
      have h2 : (360000 : ℤ) ≤ ⌊x⌋ := Int.le_floor.2 (by exact_mod_cast hx)
      omega
    have hlen : 3 ≤ (pad ((k / 3600 : ℕ) : ℤ) 2).length := by
      have := toDigits_length_ge (k / 3600) (by omega)
      unfold pad padStart
      rw [numToString_natCast]
      simp only [List.length_append, List.length_replicate]
      omega
    have htot : 12 < (formatForSRT x).length := by
      rw [heq, hmin.1, hsec.1, hms.1]
      simp only [List.length_append, List.length_singleton, twoDigits, threeDigits,
        List.length_cons, List.length_nil]
      omega
    refine ⟨?_, htot⟩
    cases hm : matchesSRT (formatForSRT x) with
    | false => rfl
    | true =>
      exfalso
      unfold matchesSRT at hm
      split at hm
      · rename_i heq2
        rw [heq2] at htot
        simp at htot
      · cases hm

/-- The stamp of one hour, one minute, one second and a half. -/
theorem formatForSRT_pattern_witness :
    ((0 : ℚ) ≤ 7323 / 2 ∧ (7323 / 2 : ℚ) < 360000) ∧
    matchesSRT (formatForSRT (7323 / 2)) = true ∧ (formatForSRT (7323 / 2)).length = 12 :=
  ⟨⟨by norm_num, by norm_num⟩,
    (formatForSRT_pattern (7323 / 2) (by norm_num)).1 (by norm_num)⟩

theorem formatForSRT_natCast (n : ℕ) :
    formatForSRT (n : ℚ) = pad ((n / 3600 : ℕ) : ℤ) 2 ++ [':'] ++
      pad ((n % 3600 / 60 : ℕ) : ℤ) 2 ++ [':'] ++ pad ((n % 60 : ℕ) : ℤ) 2 ++ [','] ++
      pad 0 3 := by
  unfold formatForSRT
  rw [secondsToComponents_natCast]

/-- C11, counterexample: 360000 seconds, 100 hours, are formatted as "100:00:00,000",
13 characters with an hours field of three digits. -/
theorem formatForSRT_hundred_hours :
    formatForSRT 360000 =
      ['1', '0', '0', ':', '0', '0', ':', '0', '0', ',', '0', '0', '0'] ∧
    (formatForSRT 360000).length ≠ 12 ∧ matchesSRT (formatForSRT 360000) = false := by
  have h : formatForSRT 360000 =
      ['1', '0', '0', ':', '0', '0', ':', '0', '0', ',', '0', '0', '0'] := by
    rw [show (360000 : ℚ) = ((360000 : ℕ) : ℚ) by norm_num, formatForSRT_natCast]
    decide
  rw [h]
  decide

/-- In exact arithmetic, for a whole number of seconds `formatSimple` gives "M:SS"
below one hour, the minutes in decimal without padding and the seconds with two digits,
and "H:MM:SS" from one hour on, the hours in decimal without padding and the minutes
and the seconds with two digits each. -/
theorem formatSimple_spec (s : ℕ) :
    formatSimple (s : ℚ) =
      if s < 3600 then Nat.toDigits 10 (s / 60) ++ [':'] ++ twoDigits (s % 60)
      else Nat.toDigits 10 (s / 3600) ++ [':'] ++ twoDigits (s % 3600 / 60) ++ [':'] ++
        twoDigits (s % 60) := by
  have hsec := (pad_two (s % 60) (by omega)).1
  have hmin := (pad_two (s % 3600 / 60) (by omega)).1
  unfold formatSimple
  rw [secondsToComponents_natCast]
  simp only [hsec, hmin, numToString_natCast]
  by_cases h : s < 3600
  · rw [if_pos h, if_neg (by simp only [gt_iff_lt, Nat.cast_pos]; omega), Nat.mod_eq_of_lt h]
  · rw [if_neg h, if_pos (by simp only [gt_iff_lt, Nat.cast_pos]; omega)]

end TimestampUtils

/-! ## `divideIntoTopics` -/

namespace TextUtils

open TimestampUtils

theorem joinLines_cons (l : Str) (ls : List Str) :
    joinLines (l :: ls) = l ++ [' '] ++ joinLines ls := by
  simp [joinLines]

/-- The loop of `divideIntoTopics` from any state: the topic in progress receives the
lines up to the next marker line and one topic follows for each section. -/
theorem foldl_divideStep (lines : List Str) (st : Parse) :
    (lines.foldl divideStep st).result =
      match st.currentTopic with
      | some t =>
        st.topics ++
          [{ t with content := t.content ++
              joinLines (lines.takeWhile (fun x => !isMarkerLine x)) }] ++
          topicsFrom st.autoCounter lines
      | none => st.topics ++ topicsFrom st.autoCounter lines := by
  induction lines generalizing st with
  | nil =>
    obtain ⟨topics, cur, n⟩ := st
    cases cur <;> simp [Parse.result, topicsFrom, joinLines]
  | cons l rest ih =>
    obtain ⟨topics, cur, n⟩ := st
    rw [List.foldl_cons, ih]
    by_cases hm : isMarkerLine l = true
    · have hm2 : startsWithMarker (trim l) = true := hm
      cases cur <;>
        simp [divideStep, hm2, hm, topicsFrom, derivedTitle, joinLines]
    · have hm2 : ¬ startsWithMarker (trim l) = true := hm
      cases cur <;>
        simp [divideStep, hm2, hm, topicsFrom, joinLines_cons]

/-- The parser gives one topic for each section of the normalised text. -/
theorem divideIntoTopics_eq (text : Str) :
    divideIntoTopics text = topicsFrom 1 (linesOf text) := by
  unfold divideIntoTopics linesOf
  simp only
  rw [foldl_divideStep]
  simp

theorem topicsFrom_numbers (n : Nat) (lines : List Str) :
    (topicsFrom n lines).map Topic.number =
      List.range' n (lines.filter isMarkerLine).length := by
  induction lines generalizing n with
  | nil => simp [topicsFrom]
  | cons l rest ih =>
    by_cases hm : isMarkerLine l = true
    · simp [topicsFrom, hm, ih, List.range'_succ]
    · simp [topicsFrom, hm, ih]

theorem topicsFrom_sections (n : Nat) (lines : List Str) :
    (topicsFrom n lines).map (fun t => (t.title, t.content)) =
      (sections lines).map (fun p =>
        (if derivedTitle p.1 ≠ [] then derivedTitle p.1 else noTitle, joinLines p.2)) := by
  induction lines generalizing n with
  | nil => simp [topicsFrom, sections]
  | cons l rest ih =>
    by_cases hm : isMarkerLine l = true
    · simp [topicsFrom, sections, hm, ih]
    · simp [topicsFrom, sections, hm, ih]

/-- C14: a text with `k` marker lines, counted once the line endings are normalised,
gives exactly `k` topics and their numbers are `1, 2, ..., k` in the order of the
marker lines, whatever numbering the marker lines carry. -/
theorem divideIntoTopics_numbers (text : Str) :
    (divideIntoTopics text).length = ((linesOf text).filter isMarkerLine).length ∧
    (divideIntoTopics text).map Topic.number =
      List.range' 1 ((linesOf text).filter isMarkerLine).length := by
  have h := topicsFrom_numbers 1 (linesOf text)
  rw [divideIntoTopics_eq]
  refine ⟨?_, h⟩
  have := congrArg List.length h
  simpa using this

/-- C15: the contents of the topics are, section by section, the lines between a marker
line and the next one (or the end), each line as it is and followed by one space; the
lines before the first marker line are in no section. The text of the example gives
the topics `{1, "Intro", "Hello world. This is a test. "}` and
`{2, "Topic Two", "More content here. "}`. -/
theorem divideIntoTopics_contents (text : Str) :
    (divideIntoTopics text).map Topic.content =
      (sections (linesOf text)).map (fun p => joinLines p.2) ∧
    divideIntoTopics
        "## Intro\nHello world. This is a test.\n## Topic Two\nMore content here.".toList =
      [⟨1, "Intro".toList, "Hello world. This is a test. ".toList⟩,
        ⟨2, "Topic Two".toList, "More content here. ".toList⟩] := by
  constructor
  · have h := congrArg (List.map Prod.snd) (topicsFrom_sections 1 (linesOf text))
    rw [divideIntoTopics_eq]
    simpa [List.map_map, Function.comp_def] using h
  · decide

/-- C16: every topic has a non-empty title. The title of a topic is the title that its
marker line carries or, when that is empty, "(No title)"; each marker line still gives
its topic and the lines after it are its content. -/
theorem divideIntoTopics_titles (text : Str) :
    (∀ t ∈ divideIntoTopics text, t.title ≠ []) ∧
    (divideIntoTopics text).map (fun t => (t.title, t.content)) =
      (sections (linesOf text)).map (fun p =>
        (if derivedTitle p.1 ≠ [] then derivedTitle p.1 else "(No title)".toList,
          joinLines p.2)) ∧
    divideIntoTopics "##\nbody\n## 2) B".toList =
      [⟨1, "(No title)".toList, "body ".toList⟩, ⟨2, "B".toList, []⟩] := by
  have h := topicsFrom_sections 1 (linesOf text)
  rw [← divideIntoTopics_eq] at h
  refine ⟨?_, h, by decide⟩
  intro t ht
  have hm : (t.title, t.content) ∈
      (divideIntoTopics text).map (fun t => (t.title, t.content)) :=
    List.mem_map.2 ⟨t, ht, rfl⟩
  rw [h] at hm
  obtain ⟨p, _, hp⟩ := List.mem_map.1 hm
  have ht1 : t.title = if derivedTitle p.1 ≠ [] then derivedTitle p.1 else noTitle :=
    (congrArg Prod.fst hp).symm
  rw [ht1]
  split_ifs with hd
  · exact hd
  · decide

/-! ### Line endings -/

theorem replaceCRLF_cons_of_ne (c : Char) (cs : Str) (hc : c ≠ '\r') :
    replaceCRLF (c :: cs) = c :: replaceCRLF cs := by
  cases cs with
  | nil => simp [replaceCRLF]
  | cons d ds => simp [replaceCRLF, hc]

theorem replaceCRLF_of_noCR (t : Str) (h : '\r' ∉ t) : replaceCRLF t = t := by
  induction t with
  | nil => rfl
  | cons c cs ih =>
    have hc : c ≠ '\r' := fun e => h (by rw [e]; exact List.mem_cons_self _ _)
    rw [replaceCRLF_cons_of_ne c cs hc, ih (fun e => h (List.mem_cons_of_mem _ e))]

theorem replaceCRLF_of_noLF (t : Str) (h : '\n' ∉ t) : replaceCRLF t = t := by
  induction t with
  | nil => rfl
  | cons c cs ih =>
    have ih2 := ih (fun e => h (List.mem_cons_of_mem _ e))
    cases cs with
    | nil => simp [replaceCRLF]
    | cons d ds =>
      have hd : d ≠ '\n' :=
        fun e => h (by rw [e]; exact List.mem_cons_of_mem _ (List.mem_cons_self _ _))
      simp only [replaceCRLF, hd, and_false, if_false]
      rw [ih2]

theorem replaceCR_of_noCR (t : Str) (h : '\r' ∉ t) : replaceCR t = t := by
  induction t with
  | nil => rfl
  | cons c cs ih =>
    have hc : c ≠ '\r' := fun e => h (by rw [e]; exact List.mem_cons_self _ _)
    have := ih (fun e => h (List.mem_cons_of_mem _ e))
    unfold replaceCR at this ⊢
    simp [hc, this]

theorem replaceCRLF_toCRLF (t : Str) (h : '\r' ∉ t) : replaceCRLF (toCRLF t) = t := by
  induction t with
  | nil => rfl
  | cons c cs ih =>
    have hc : c ≠ '\r' := fun e => h (by rw [e]; exact List.mem_cons_self _ _)
    have ih2 := ih (fun e => h (List.mem_cons_of_mem _ e))
    have hcons : toCRLF (c :: cs) = (if c = '\n' then ['\r', '\n'] else [c]) ++ toCRLF cs := by
      simp [toCRLF]
    rw [hcons]
    by_cases hn : c = '\n'
    · rw [if_pos hn, hn]
      simp [replaceCRLF, ih2]
    · rw [if_neg hn, List.singleton_append, replaceCRLF_cons_of_ne c _ hc, ih2]

theorem not_mem_toCR (t : Str) : '\n' ∉ toCR t := by
  intro h
  unfold toCR at h
  obtain ⟨c, _, hc⟩ := List.mem_map.1 h
  split_ifs at hc with h1
  · exact absurd hc (by decide)
  · exact h1 hc

theorem replaceCR_toCR (t : Str) (h : '\r' ∉ t) : replaceCR (toCR t) = t := by
  induction t with
  | nil => rfl
  | cons c cs ih =>
    have hc : c ≠ '\r' := fun e => h (by rw [e]; exact List.mem_cons_self _ _)
    have := ih (fun e => h (List.mem_cons_of_mem _ e))
    unfold replaceCR toCR at this ⊢
    by_cases hn : c = '\n'
    · simp [hn, this]
    · simp [hn, hc, this]

/-- C19: for a text without carriage return the parser gives the same topics when
every line feed is replaced by a carriage return and a line feed, and when it is
replaced by a carriage return alone. -/
theorem divideIntoTopics_lineEndings (t : Str) (h : '\r' ∉ t) :
    divideIntoTopics (toCRLF t) = divideIntoTopics t ∧
    divideIntoTopics (toCR t) = divideIntoTopics t := by
  have h0 : replaceCR (replaceCRLF t) = t := by
    rw [replaceCRLF_of_noCR t h, replaceCR_of_noCR t h]
  have h1 : replaceCR (replaceCRLF (toCRLF t)) = t := by
    rw [replaceCRLF_toCRLF t h, replaceCR_of_noCR t h]
  have h2 : replaceCR (replaceCRLF (toCR t)) = t := by
    rw [replaceCRLF_of_noLF _ (not_mem_toCR t), replaceCR_toCR t h]
  unfold divideIntoTopics
  simp only [h0, h1, h2, and_self]

/-- The text of the example with the three conventions of line ending. -/
theorem divideIntoTopics_lineEndings_witness :
    '\r' ∉ "## Intro\nHello world.\n## 2. Two\nMore.".toList ∧
    divideIntoTopics "## Intro\r\nHello world.\r\n## 2. Two\r\nMore.".toList =
      divideIntoTopics "## Intro\nHello world.\n## 2. Two\nMore.".toList ∧
    divideIntoTopics "## Intro\rHello world.\r## 2. Two\rMore.".toList =
      divideIntoTopics "## Intro\nHello world.\n## 2. Two\nMore.".toList :=
  ⟨by decide,
    divideIntoTopics_lineEndings "## Intro\nHello world.\n## 2. Two\nMore.".toList
      (by decide)⟩

/-! ## `removeNumbering` -/

theorem stripNumbering_of_not (u : Str) (h : hasNumbering u = false) :
    stripNumbering u = u := by
  unfold stripNumbering
  rw [h]
  rfl

theorem length_stripNumbering_lt (u : Str) (h : hasNumbering u = true) :
    (stripNumbering u).length < u.length := by
  unfold stripNumbering
  rw [if_pos h]
  have h1 : (((u.dropWhile isDigit).drop 1).dropWhile isWs).length ≤
      ((u.dropWhile isDigit).drop 1).length := (List.dropWhile_suffix isWs).length_le
  have h2 : (u.dropWhile isDigit).length ≤ u.length :=
    (List.dropWhile_suffix isDigit).length_le
  have h3 : u.dropWhile isDigit ≠ [] := by
    intro e
    unfold hasNumbering at h
    rw [e] at h
    cases h
  have h4 : 0 < (u.dropWhile isDigit).length := List.length_pos.2 h3
  simp only [List.length_drop] at h1
  omega

theorem trim_dropWhile (s : Str) : trim (s.dropWhile isWs) = trim s := by
  have h : (s.dropWhile isWs).dropWhile isWs = s.dropWhile isWs := by
    induction s with
    | nil => rfl
    | cons c cs ih =>
      by_cases hc : isWs c = true
      · rw [List.dropWhile_cons_of_pos hc, ih]
      · rw [List.dropWhile_cons_of_neg hc, List.dropWhile_cons_of_neg hc]
  rw [trim_eq_rdropWhile, h, trim_eq_rdropWhile]

/-- The three forms that the pattern covers: after a non-empty run of digits and one
of `.`, `)` and `-`, what `removeNumbering` returns is the rest, trimmed. -/
theorem removeNumbering_form (digits rest : Str) (mark : Char)
    (hne : digits ≠ []) (hd : ∀ c ∈ digits, isDigit c = true)
    (hm : isNumberingMark mark = true) :
    removeNumbering (digits ++ [mark, ' '] ++ rest) = trim rest := by
  have hmd : isDigit mark = false := by
    unfold isNumberingMark at hm
    simp only [Bool.or_eq_true, beq_iff_eq] at hm
    rcases hm with (rfl | rfl) | rfl <;> decide
  have hdrop : (digits ++ [mark, ' '] ++ rest).dropWhile isDigit = mark :: ' ' :: rest := by
    rw [List.append_assoc, List.dropWhile_append_of_pos hd]
    simp [List.dropWhile_cons, hmd]
  have htake : (digits ++ [mark, ' '] ++ rest).takeWhile isDigit = digits := by
    rw [List.append_assoc, List.takeWhile_append_of_pos hd]
    simp [List.takeWhile_cons, hmd]
  have hhas : hasNumbering (digits ++ [mark, ' '] ++ rest) = true := by
    unfold hasNumbering
    rw [hdrop, htake]
    simp [hm, hne]
  unfold removeNumbering stripNumbering
  rw [if_pos hhas, hdrop]
  simp only [List.drop_succ_cons, List.drop_zero]
  rw [List.dropWhile_cons_of_pos (by decide), trim_dropWhile]

/-- The form with a space before the dash: the pattern does not match and
`removeNumbering` only trims. -/
theorem removeNumbering_spaced (digits rest : Str) (hd : ∀ c ∈ digits, isDigit c = true) :
    removeNumbering (digits ++ [' ', '-', ' '] ++ rest) =
      trim (digits ++ [' ', '-', ' '] ++ rest) := by
  have hdrop : (digits ++ [' ', '-', ' '] ++ rest).dropWhile isDigit =
      ' ' :: '-' :: ' ' :: rest := by
    rw [List.append_assoc, List.dropWhile_append_of_pos hd]
    rw [List.cons_append, List.dropWhile_cons_of_neg (by decide)]
    rfl
  have hhas : hasNumbering (digits ++ [' ', '-', ' '] ++ rest) = false := by
    unfold hasNumbering
    rw [hdrop]
    simp [isNumberingMark]
  unfold removeNumbering
  rw [stripNumbering_of_not _ hhas]

/-- C17, as amended: stripping twice equals stripping once exactly for the titles whose
stripped form does not itself start with a numbering pattern, digits followed by
`.`, `)` or `-`. -/
theorem removeNumbering_twice (t : Str) :
    removeNumbering (removeNumbering t) = removeNumbering t ↔
      hasNumbering (removeNumbering t) = false := by
  have htrim : trim (removeNumbering t) = removeNumbering t := by
    unfold removeNumbering
    exact trim_trim _
  constructor
  · intro h
    cases hn : hasNumbering (removeNumbering t) with
    | false => rfl
    | true =>
      exfalso
      have h1 := length_stripNumbering_lt _ hn
      have h2 := length_trim_le (stripNumbering (removeNumbering t))
      have h3 := congrArg List.length h
      unfold removeNumbering at h3 h1 h2
      omega
  · intro h
    have h1 : removeNumbering (removeNumbering t) =
        trim (stripNumbering (removeNumbering t)) := rfl
    rw [h1, stripNumbering_of_not _ h, htrim]

/-- C17, counterexample: the title "1. 2. x" becomes "2. x" and then "x". -/
theorem removeNumbering_twice_counterexample :
    removeNumbering "1. 2. x".toList = "2. x".toList ∧
    removeNumbering (removeNumbering "1. 2. x".toList) = "x".toList ∧
    removeNumbering (removeNumbering "1. 2. x".toList) ≠ removeNumbering "1. 2. x".toList := by
  decide

/-- C18: the forms "1.", "2)" and "3-" are stripped, and the form "4 -", with a space
between the digits and the dash, is not: "4 - Title" is returned as it is. -/
theorem removeNumbering_documented_forms :
    removeNumbering "1. Title".toList = "Title".toList ∧
    removeNumbering "2) Title".toList = "Title".toList ∧
    removeNumbering "3- Title".toList = "Title".toList ∧
    removeNumbering "4 - Title".toList = "4 - Title".toList ∧
    removeNumbering "4 - Title".toList ≠ trim "Title".toList := by
  decide

/-! ## `extractTitles` -/

theorem splitLines_toCRLF (t : Str) :
    List.Forall₂ (fun a b => a = b ∨ a = b ++ ['\r']) (splitLines (toCRLF t)) (splitLines t) := by
  induction t with
  | nil => exact List.Forall₂.cons (Or.inl rfl) List.Forall₂.nil
  | cons c cs ih =>
    have hcons : toCRLF (c :: cs) = (if c = '\n' then ['\r', '\n'] else [c]) ++ toCRLF cs := by
      simp [toCRLF]
    rw [hcons]
    by_cases hn : c = '\n'
    · subst hn
      have h1 : splitLines (['\r', '\n'] ++ toCRLF cs) = ['\r'] :: splitLines (toCRLF cs) := by
        simp [splitLines]
      have h2 : splitLines ('\n' :: cs) = [] :: splitLines cs := by
        simp [splitLines]
      rw [if_pos rfl, h1, h2]
      exact List.Forall₂.cons (Or.inr rfl) ih
    · have hsplit : ∀ xs : Str, splitLines (c :: xs) =
          match splitLines xs with
          | [] => [[c]]
          | l :: ls => (c :: l) :: ls := by
        intro xs
        simp [splitLines, hn]
      rw [if_neg hn, List.singleton_append, hsplit, hsplit]
      generalize splitLines (toCRLF cs) = xs at ih ⊢
      generalize splitLines cs = ys at ih ⊢
      cases ih with
      | nil => exact List.Forall₂.cons (Or.inl rfl) List.Forall₂.nil
      | cons hab hrest =>
        refine List.Forall₂.cons ?_ hrest
        rcases hab with h | h
        · left; rw [h]
        · right; rw [h]; rfl

theorem foldl_congr_forall₂ (f : List Str → Str → List Str) (xs ys : List Str)
    (h : List.Forall₂ (fun a b => a = b ∨ a = b ++ ['\r']) xs ys)
    (hf : ∀ acc a b, (a = b ∨ a = b ++ ['\r']) → f acc a = f acc b) (acc : List Str) :
    xs.foldl f acc = ys.foldl f acc := by
  induction h generalizing acc with
  | nil => rfl
  | cons hab _ ih =>
    simp only [List.foldl_cons, hf _ _ _ hab]
    exact ih _

/-- The part of the claim that holds: with carriage returns and line feeds the titles
are those of the text with line feeds, since each line is trimmed. -/
theorem extractTitles_toCRLF (t : Str) : extractTitles (toCRLF t) = extractTitles t := by
  unfold extractTitles
  apply foldl_congr_forall₂ _ _ _ (splitLines_toCRLF t)
  intro acc a b hab
  have htrim : trim a = trim b := by
    rcases hab with h | h
    · rw [h]
    · rw [h, trim_concat_ws _ _ (by decide)]
  simp only [htrim]

/-- C20: with line feeds, or with carriage returns and line feeds, the text of two
marker lines gives the titles "A" and "B"; with carriage returns alone the text is one
single line and the one title "A\r## B" is returned. The text is split at the line
feeds without the normalisation that `divideIntoTopics` applies first. -/
theorem extractTitles_carriage_return :
    extractTitles "## A\n## B".toList = ["A".toList, "B".toList] ∧
    extractTitles (toCRLF "## A\n## B".toList) = ["A".toList, "B".toList] ∧
    toCR "## A\n## B".toList = "## A\r## B".toList ∧
    extractTitles (toCR "## A\n## B".toList) = ["A\r## B".toList] ∧
    (divideIntoTopics (toCR "## A\n## B".toList)).map Topic.title =
      ["A".toList, "B".toList] := by
  decide

end TextUtils

/-! ## `ExcelExporter.export` -/

namespace ExcelExporter

open TextUtils

theorem extractStep_lengths (st : Extract) (line : Str)
    (h : st.contents.length = st.titles.length) :
    (extractStep st line).contents.length = (extractStep st line).titles.length := by
  unfold extractStep
  simp only
  split_ifs <;> simp [h]

theorem foldl_extractStep_lengths (lines : List Str) (st : Extract)
    (h : st.contents.length = st.titles.length) :
    (lines.foldl extractStep st).contents.length =
      (lines.foldl extractStep st).titles.length := by
  induction lines generalizing st with
  | nil => exact h
  | cons l ls ih => exact ih _ (extractStep_lengths st l h)

/-- Each extracted title has its content. -/
theorem extract_lengths (text : Str) : (extract text).2.length = (extract text).1.length := by
  have h := foldl_extractStep_lengths (splitLines text) ⟨[], [], [], []⟩ rfl
  unfold extract
  simp only
  split_ifs
  · simp [h]
  · exact h

/-- The loop over the parts ends for a positive `limit` and writes the rows of the
items from `i` on, at most `limit` in each file. -/
theorem fileLoop_spec (titles contents : List Str) (limit : Nat) (hl : 1 ≤ limit)
    (fuel i : Nat) (hf : titles.length ≤ fuel + i) :
    ∃ files, fileLoop titles contents limit fuel i = some files ∧
      files.length = (titles.length - i + limit - 1) / limit ∧
      (∀ f ∈ files, ∃ rows, f.data = header :: rows ∧ rows.length ≤ limit) ∧
      files.flatMap (fun f => f.data.tail) =
        (List.range' i (titles.length - i)).map (dataRow titles contents) := by
  induction fuel generalizing i with
  | zero =>
    have hi : ¬ i < titles.length := by omega
    refine ⟨[], by simp [fileLoop, hi], ?_, by simp, ?_⟩
    · rw [show titles.length - i = 0 by omega]
      simp only [List.length_nil, Nat.zero_add]
      exact (Nat.div_eq_of_lt (by omega)).symm
    · rw [show titles.length - i = 0 by omega]
      simp
  | succ fuel ih =>
    by_cases hi : i < titles.length
    · obtain ⟨rest, hrest, hlen, hrows, hdata⟩ := ih (i + limit) (by omega)
      refine ⟨⟨filenameOf titles limit i, fileData titles contents limit i⟩ :: rest,
        by simp [fileLoop, hi, hrest], ?_, ?_, ?_⟩
      · rw [List.length_cons, hlen]
        by_cases hbig : limit ≤ titles.length - i
        · rw [show titles.length - (i + limit) + limit - 1 = titles.length - i - 1 by omega,
            show titles.length - i + limit - 1 = (titles.length - i - 1) + limit by omega,
            Nat.add_div_right _ (by omega)]
        · rw [show titles.length - (i + limit) + limit - 1 = limit - 1 by omega,
            Nat.div_eq_of_lt (by omega)]
          exact (Nat.div_eq_of_lt_le (by omega) (by omega)).symm
      · intro f hf2
        rcases List.mem_cons.1 hf2 with rfl | hf2
        · refine ⟨_, rfl, ?_⟩
          simp only [List.length_map, List.length_range']
          omega
        · exact hrows f hf2
      · rw [List.flatMap_cons, hdata]
        simp only [fileData, List.tail_cons]
        rw [← List.map_append]
        congr 1
        by_cases hbig : i + limit ≤ titles.length
        · rw [Nat.min_eq_left hbig, show i + limit - i = limit by omega,
            List.range'_append_1]
          congr 1
          omega
        · rw [Nat.min_eq_right (by omega), show titles.length - (i + limit) = 0 by omega]
          simp
    · refine ⟨[], by simp [fileLoop, hi], ?_, by simp, ?_⟩
      · rw [show titles.length - i = 0 by omega]
        simp only [List.length_nil, Nat.zero_add]
        exact (Nat.div_eq_of_lt (by omega)).symm
      · rw [show titles.length - i = 0 by omega]
        simp

/-- C21: when `export` extracts `n ≥ 1` titles with their contents and `limit ≥ 1`, it
writes `ceil(n / limit)` files; the rows of each file are the header
`["title", "input"]` and at most `limit` data rows; and the data rows of all the files
in order are `[j, title_j + " " + content_j]` for `j = 1, ..., n`, the index going on
from one file to the next. -/
theorem exportFiles_spec (text : Str) (limit : Nat) (hl : 1 ≤ limit)
    (hn : 1 ≤ (extract text).1.length) :
    ∃ files, exportFiles text limit = some files ∧
      files.length = ((extract text).1.length + limit - 1) / limit ∧
      (∀ f ∈ files, ∃ rows,
        f.data = [Cell.str "title".toList, Cell.str "input".toList] :: rows ∧
        rows.length ≤ limit) ∧
      (extract text).2.length = (extract text).1.length ∧
      files.flatMap (fun f => f.data.tail) =
        (List.range (extract text).1.length).map (fun j =>
          [Cell.num (j + 1),
            Cell.str ((extract text).1.getD j [] ++ [' '] ++ (extract text).2.getD j [])]) := by
  obtain ⟨files, h1, h2, h3, h4⟩ := fileLoop_spec (extract text).1 (extract text).2 limit hl
    (extract text).1.length 0 (by omega)
  refine ⟨files, ?_, ?_, h3, extract_lengths text, ?_⟩
  · unfold exportFiles
    simp only
    rw [if_neg (by omega)]
    exact h1
  · rw [h2]
    simp
  · rw [h4, List.range_eq_range']
    simp only [Nat.sub_zero]
    rfl

/-- Three titles with a limit of two: two files, of two rows and of one row. -/
theorem exportFiles_spec_witness :
    (1 ≤ 2 ∧ 1 ≤ (extract "## A\nx\n## B\ny\n## C".toList).1.length) ∧
    ∃ files, exportFiles "## A\nx\n## B\ny\n## C".toList 2 = some files ∧
      files.length = ((extract "## A\nx\n## B\ny\n## C".toList).1.length + 2 - 1) / 2 :=
  ⟨by decide,
    (exportFiles_spec "## A\nx\n## B\ny\n## C".toList 2 (by decide) (by decide)).imp
      (fun _ h => ⟨h.1, h.2.1⟩)⟩

/-- C22: the text has three marker lines and the one without a title gives no row: the
file holds the rows of "A" and "B" only, and the line "y" after the marker line without
a title is in no row. The empty `currentTitle` is taken for the absence of a title,
where `divideIntoTopics` gives the topic "(No title)" with its content. -/
theorem exportFiles_empty_title :
    ((splitLines "## A\nx\n##\ny\n## B\nz".toList).filter isMarkerLine).length = 3 ∧
    extract "## A\nx\n##\ny\n## B\nz".toList =
      (["A".toList, "B".toList], ["x".toList, "z".toList]) ∧
    exportFiles "## A\nx\n##\ny\n## B\nz".toList 20 =
      some [⟨"A.xlsx".toList,
        [[Cell.str "title".toList, Cell.str "input".toList],
          [Cell.num 1, Cell.str "A x".toList], [Cell.num 2, Cell.str "B z".toList]]⟩] ∧
    (divideIntoTopics "## A\nx\n##\ny\n## B\nz".toList).map
        (fun t => (t.title, t.content)) =
      [("A".toList, "x ".toList), ("(No title)".toList, "y ".toList),
        ("B".toList, "z ".toList)] := by
  decide

end ExcelExporter

/-! ## What the segmentation keeps -/

theorem stripWs_append (a b : Str) : stripWs (a ++ b) = stripWs a ++ stripWs b := by
  simp [stripWs]

theorem stripWs_dropWhile (s : Str) : stripWs (s.dropWhile isWs) = stripWs s := by
  induction s with
  | nil => rfl
  | cons c cs ih =>
    by_cases hc : isWs c = true
    · rw [List.dropWhile_cons_of_pos hc, ih]
      simp [stripWs, hc]
    · rw [List.dropWhile_cons_of_neg hc]

theorem stripWs_rdropWhile (s : Str) : stripWs (s.rdropWhile isWs) = stripWs s := by
  induction s using List.reverseRecOn with
  | nil => simp
  | append_singleton l x ih =>
    by_cases hx : isWs x = true
    · rw [List.rdropWhile_concat_pos _ _ _ hx, ih, stripWs_append]
      simp [stripWs, hx]
    · rw [List.rdropWhile_concat_neg _ _ _ hx]

theorem stripWs_trim (s : Str) : stripWs (trim s) = stripWs s := by
  rw [trim_eq_rdropWhile, stripWs_rdropWhile, stripWs_dropWhile]

theorem stripWs_word (w : Str) (hw : ∀ c ∈ w, isWs c = false) : stripWs w = w := by
  unfold stripWs
  rw [List.filter_eq_self]
  intro c hc
  simp [hw c hc]

theorem stripWs_take_drop (k : Nat) (s : Str) :
    stripWs (s.take k) ++ stripWs (s.drop k) = stripWs s := by
  rw [← stripWs_append, List.take_append_drop]

theorem splitWsGo_flatten (inSep : Bool) (s : Str) :
    (splitWsGo inSep s).flatten = stripWs s := by
  induction s generalizing inSep with
  | nil => simp [splitWsGo, stripWs]
  | cons c cs ih =>
    unfold splitWsGo
    by_cases hc : isWs c = true
    · rw [if_pos hc]
      cases inSep <;> simp [ih, stripWs, hc]
    · rw [if_neg hc]
      have h := ih false
      cases hs : splitWsGo false cs with
      | nil =>
        rw [hs] at h
        simp only [List.flatten_nil] at h
        simp [stripWs, hc] at h ⊢
        exact h
      | cons p ps =>
        rw [hs] at h
        simp only [List.flatten_cons] at h ⊢
        simp only [stripWs, List.cons_append] at h ⊢
        rw [h]
        simp [hc]

theorem flatten_filter_nonempty (l : List Str) :
    (l.filter (fun w => decide (0 < w.length))).flatten = l.flatten := by
  induction l with
  | nil => rfl
  | cons w ws ih =>
    cases w with
    | nil => simp [ih]
    | cons c w => simp [ih]

/-- The words of a text, put together, are the text without its whitespace. -/
theorem wordsOf_flatten (text : Str) : (wordsOf text).flatten = stripWs text := by
  unfold wordsOf splitWs
  rw [flatten_filter_nonempty, splitWsGo_flatten, stripWs_trim]

namespace SRTGenerator

open TimestampUtils

theorem held_addBlock (r : Run) (t b : Str) :
    stripWs ((addBlock r t BLOCK_DURATION).srtContent.map Entry.text).flatten ++ stripWs b =
      stripWs (r.srtContent.map Entry.text).flatten ++ stripWs t ++ stripWs b := by
  simp [addBlock, stripWs_append]

/-- One step of the loop adds the word to what is held and changes nothing else. -/
theorem held_segStep (st : Seg) (w : Str) (hw : ∀ c ∈ w, isWs c = false) :
    held (segStep st w) = held st ++ w := by
  have hsp : stripWs [' '] = [] := by decide
  have hword := stripWs_word w hw
  unfold segStep
  split_ifs with h1
  · simp [held, stripWs_append, hword, hsp]
  · split
    · rename_i lastPeriod hlast
      split_ifs with h2
      · simp only [held]
        rw [held_addBlock, stripWs_trim, stripWs_append, stripWs_append, hword, hsp,
          List.append_nil, List.append_assoc, ← List.append_assoc (stripWs (List.take _ _)),
          stripWs_take_drop, List.append_assoc]
      · simp only [held]
        rw [held_addBlock, stripWs_trim, stripWs_append, hword, hsp, List.append_nil,
          List.append_assoc]
    · simp only [held]
      rw [held_addBlock, stripWs_trim, stripWs_append, hword, hsp, List.append_nil,
        List.append_assoc]

theorem held_foldl (ws : List Str) (st : Seg) (hw : ∀ w ∈ ws, ∀ c ∈ w, isWs c = false) :
    held (ws.foldl segStep st) = held st ++ ws.flatten := by
  induction ws generalizing st with
  | nil => simp
  | cons w ws ih =>
    rw [List.foldl_cons, ih _ (fun x hx => hw x (List.mem_cons_of_mem _ hx)),
      held_segStep st w (hw w (List.mem_cons_self _ _))]
    simp

theorem contentBlocks_flatten (content : Str) :
    stripWs (contentBlocks content).flatten = stripWs content := by
  have h := held_foldl (wordsOf content) ⟨Run.init, [], 0⟩
    (fun w hw => (wordsOf_isWord content w hw).2)
  rw [wordsOf_flatten] at h
  have h0 : held ⟨Run.init, [], 0⟩ = [] := by decide
  rw [h0, List.nil_append] at h
  unfold contentBlocks segment segLoop
  simp only
  unfold held at h
  split_ifs with ht
  · rw [← h]
    simp [addBlock, stripWs_append, stripWs_trim]
  · have hnil : trim ((wordsOf content).foldl segStep ⟨Run.init, [], 0⟩).currentBlock = [] := by
      by_contra hc
      exact ht hc
    have hb : stripWs ((wordsOf content).foldl segStep ⟨Run.init, [], 0⟩).currentBlock = [] := by
      rw [← stripWs_trim, hnil]
      rfl
    rw [hb, List.append_nil] at h
    exact h

/-- C24: for every topic and either value of the title flag, the blocks of the topic
are its title block, when the flag is set, and its content blocks; and the texts of the
content blocks, put together in emission order and without whitespace, are the content
without whitespace: nothing is lost, repeated or moved. -/
theorem generateComplete_keeps_content (topic : Topic) (includeTitles : Bool) :
    (generateComplete [topic] includeTitles).1.map Entry.text =
      (if includeTitles then [titleWithDots topic] else []) ++ contentBlocks topic.content ∧
    ((contentBlocks topic.content).flatten).filter (fun c => !isWs c) =
      topic.content.filter (fun c => !isWs c) := by
  refine ⟨?_, contentBlocks_flatten topic.content⟩
  have h := generateComplete_texts [topic] includeTitles
  simpa using h

/-! ## The counter of words -/

/-- The counter is never below the number of words in the buffer. -/
theorem segLoop_wordsInBlock_ge (content : Str) :
    (wordsOf (segLoop Run.init (wordsOf content)).currentBlock).length ≤
      (segLoop Run.init (wordsOf content)).wordsInBlock := by
  have h := foldl_segStep_induction
    (fun _ st => EndsWs st.currentBlock ∧
      countWords true st.currentBlock ≤ st.wordsInBlock ∧
      countWords true st.currentBlock ≤ WORDS_PER_BLOCK + 1 ∧
      (∀ p, lastIndexOf '.' st.currentBlock = some p →
        countWords true (st.currentBlock.drop (p + 1)) ≤ WORDS_PER_BLOCK) ∧
      ∀ e ∈ st.run.srtContent, countWords true e.text ≤ WORDS_PER_BLOCK + 1)
    (wordsOf content)
    (fun _ st w hm hst => segStep_words st w (wordsOf_isWord content w hm) hst)
    0 ⟨Run.init, [], 0⟩
    ⟨Or.inl rfl, by simp [countWords], by simp [countWords],
      fun p hp => by simp [lastIndexOf] at hp, by simp [Run.init]⟩
  rw [length_wordsOf]
  exact h.2.1

theorem segStep_counter_plain (st : Seg) (w : Str) (hw : IsWord w) (hp : '.' ∉ w)
    (h : '.' ∉ st.currentBlock ∧ EndsWs st.currentBlock ∧
      countWords true st.currentBlock = st.wordsInBlock) :
    '.' ∉ (segStep st w).currentBlock ∧ EndsWs (segStep st w).currentBlock ∧
      countWords true (segStep st w).currentBlock = (segStep st w).wordsInBlock := by
  obtain ⟨hno, hends, hcnt⟩ := h
  have hnone := (lastIndexOf_eq_none_iff '.' st.currentBlock).2 hno
  unfold segStep
  rw [hnone]
  split_ifs with h1
  · have hpush := countWords_push st.currentBlock w hends hw
    refine ⟨?_, EndsWs.concat _, ?_⟩
    · simp [hno, hp]
    · simp only [hpush, hcnt]
  · have hone : countWords true (w ++ [' ']) = 1 := by
      have := countWords_push [] w (Or.inl rfl) hw
      simpa [countWords] using this
    refine ⟨?_, EndsWs.concat _, ?_⟩
    · simp [hp]
    · simp only [hone]

/-- Without a period in the content there is no split and the counter is the number of
words in the buffer. -/
theorem segLoop_wordsInBlock_plain (content : Str) (hno : '.' ∉ content) :
    (segLoop Run.init (wordsOf content)).wordsInBlock =
      (wordsOf (segLoop Run.init (wordsOf content)).currentBlock).length := by
  have h := foldl_segStep_induction
    (fun _ st => '.' ∉ st.currentBlock ∧ EndsWs st.currentBlock ∧
      countWords true st.currentBlock = st.wordsInBlock)
    (wordsOf content)
    (fun _ st w hm hst => segStep_counter_plain st w (wordsOf_isWord content w hm)
      (fun hc => hno (wordsOf_subset content w hm _ hc)) hst)
    0 ⟨Run.init, [], 0⟩ ⟨by simp, Or.inl rfl, by simp [countWords]⟩
  rw [length_wordsOf]
  exact h.2.2.symm

set_option maxRecDepth 100000

/-- C23: for the content "a." followed by one word of 498 characters the second word
makes the loop split at the period; the remainder is one space, whose split at
whitespace has the two empty pieces, so the counter becomes 3 while the buffer holds
one word. The counter takes the length of `remainder.split(/\s+/)` with its empty
pieces, where the words of the content are filtered with `w.length > 0`. -/
theorem segLoop_counter_after_split :
    (segLoop Run.init (wordsOf splitContent)).run.srtContent.map Entry.text = [['a', '.']] ∧
    (segLoop Run.init (wordsOf splitContent)).currentBlock =
      [' '] ++ List.replicate 498 'b' ++ [' '] ∧
    splitWs [' '] = [[], []] ∧
    (segLoop Run.init (wordsOf splitContent)).wordsInBlock = 3 ∧
    (wordsOf (segLoop Run.init (wordsOf splitContent)).currentBlock).length = 1 := by
  decide

end SRTGenerator

/-! ## Double-precision arithmetic: rounding -/

theorem roundHalfEven_of_near (y : ℚ) (r : ℤ) (h1 : (r : ℚ) - 1 / 2 < y)
    (h2 : y < (r : ℚ) + 1 / 2) : roundHalfEven y = r := by
  unfold roundHalfEven
  by_cases hy : (r : ℚ) ≤ y
  · have hf : ⌊y⌋ = r := Int.floor_eq_iff.2 ⟨hy, by linarith⟩
    rw [hf, if_pos (by linarith)]
  · have hf : ⌊y⌋ = r - 1 := Int.floor_eq_iff.2 ⟨by push_cast; linarith, by push_cast; linarith⟩
    rw [hf, if_neg (by push_cast; linarith), if_pos (by push_cast; linarith)]
    omega

theorem roundHalfEven_intCast (n : ℤ) : roundHalfEven (n : ℚ) = n :=
  roundHalfEven_of_near _ n (by linarith) (by linarith)

theorem roundHalfEven_error (y : ℚ) : |(roundHalfEven y : ℚ) - y| ≤ 1 / 2 := by
  have h1 := Int.floor_le y
  have h2 := Int.lt_floor_add_one y
  unfold roundHalfEven
  rw [abs_le]
  split_ifs with ha hb hc
  · constructor <;> linarith
  · push_cast
    constructor <;> linarith
  · constructor <;> linarith
  · push_cast
    constructor <;> linarith

theorem log_two_eq (x : ℚ) (e : ℤ) (h1 : (2 : ℚ) ^ e ≤ x) (h2 : x < (2 : ℚ) ^ (e + 1)) :
    Int.log 2 |x| = e := by
  have hx : 0 < x := lt_of_lt_of_le (by positivity) h1
  rw [abs_of_pos hx]
  have ha : e ≤ Int.log 2 x :=
    (Int.zpow_le_iff_le_log (by norm_num) hx).1 (by simpa using h1)
  have hb : Int.log 2 x < e + 1 :=
    (Int.lt_zpow_iff_log_lt (by norm_num) hx).1 (by simpa using h2)
  omega

/-- The rounding of a positive number whose binade is known. -/
theorem roundDouble_of_bounds (x : ℚ) (e : ℤ) (h1 : (2 : ℚ) ^ e ≤ x)
    (h2 : x < (2 : ℚ) ^ (e + 1)) :
    roundDouble x = (roundHalfEven (x / (2 : ℚ) ^ (e - 52)) : ℚ) * (2 : ℚ) ^ (e - 52) := by
  have hx : 0 < x := lt_of_lt_of_le (by positivity) h1
  unfold roundDouble
  rw [if_neg hx.ne', log_two_eq x e h1 h2]

/-- A positive number with a known binade that lies within half a step of a multiple of
the step is rounded to that multiple. -/
theorem roundDouble_eq (x : ℚ) (e r : ℤ) (h1 : (2 : ℚ) ^ e ≤ x) (h2 : x < (2 : ℚ) ^ (e + 1))
    (h3 : (r : ℚ) - 1 / 2 < x / (2 : ℚ) ^ (e - 52))
    (h4 : x / (2 : ℚ) ^ (e - 52) < (r : ℚ) + 1 / 2) :
    roundDouble x = (r : ℚ) * (2 : ℚ) ^ (e - 52) := by
  rw [roundDouble_of_bounds x e h1 h2, roundHalfEven_of_near _ r h3 h4]

theorem roundDouble_zero : roundDouble 0 = 0 := by
  unfold roundDouble
  rw [if_pos rfl]

/-- The error of the rounding of a positive number below `2 ^ (E + 1)` is at most
`2 ^ (E - 53)`. -/
theorem roundDouble_error (x : ℚ) (E : ℤ) (hx : 0 < x) (h2 : x < (2 : ℚ) ^ (E + 1)) :
    |roundDouble x - x| ≤ (2 : ℚ) ^ (E - 53) := by
  have hlog : Int.log 2 x < E + 1 :=
    (Int.lt_zpow_iff_log_lt (by norm_num) hx).1 (by simpa using h2)
  have hq : (0 : ℚ) < (2 : ℚ) ^ (Int.log 2 x - 52) := by positivity
  unfold roundDouble
  rw [if_neg hx.ne', abs_of_pos hx]
  have herr := roundHalfEven_error (x / (2 : ℚ) ^ (Int.log 2 x - 52))
  have hrw : (roundHalfEven (x / (2 : ℚ) ^ (Int.log 2 x - 52)) : ℚ) *
      (2 : ℚ) ^ (Int.log 2 x - 52) - x =
      ((roundHalfEven (x / (2 : ℚ) ^ (Int.log 2 x - 52)) : ℚ) -
        x / (2 : ℚ) ^ (Int.log 2 x - 52)) * (2 : ℚ) ^ (Int.log 2 x - 52) := by
    field_simp
  rw [hrw, abs_mul, abs_of_pos hq]
  have hstep : (2 : ℚ) ^ (Int.log 2 x - 52) ≤ 2 * (2 : ℚ) ^ (E - 53) := by
    have h53 : (2 : ℚ) * (2 : ℚ) ^ (E - 53) = (2 : ℚ) ^ (E - 52) := by
      rw [show E - 52 = (E - 53) + 1 by ring, zpow_add_one₀ (by norm_num)]
      ring
    rw [h53]
    exact zpow_le_zpow_right₀ (by norm_num) (by omega)
  calc |(roundHalfEven (x / (2 : ℚ) ^ (Int.log 2 x - 52)) : ℚ) -
        x / (2 : ℚ) ^ (Int.log 2 x - 52)| * (2 : ℚ) ^ (Int.log 2 x - 52)
      ≤ 1 / 2 * (2 * (2 : ℚ) ^ (E - 53)) :=
        mul_le_mul herr hstep hq.le (by norm_num)
    _ = (2 : ℚ) ^ (E - 53) := by ring

/-- A natural number below `2 ^ 53` times a power of two is a double. -/
theorem roundDouble_exact (m : ℕ) (k : ℤ) (hm : m < 2 ^ 53) :
    roundDouble ((m : ℚ) * (2 : ℚ) ^ k) = (m : ℚ) * (2 : ℚ) ^ k := by
  rcases Nat.eq_zero_or_pos m with rfl | hpos
  · simp [roundDouble_zero]
  have hl1 : 2 ^ Nat.log 2 m ≤ m := Nat.pow_log_le_self 2 hpos.ne'
  have hl2 : m < 2 ^ (Nat.log 2 m + 1) := Nat.lt_pow_succ_log_self (by norm_num) m
  have hl3 : Nat.log 2 m < 53 := by
    by_contra hc
    have : 2 ^ 53 ≤ 2 ^ Nat.log 2 m := Nat.pow_le_pow_right (by norm_num) (by omega)
    omega
  have hk : (0 : ℚ) < (2 : ℚ) ^ k := by positivity
  have h1 : (2 : ℚ) ^ ((Nat.log 2 m : ℤ) + k) ≤ (m : ℚ) * (2 : ℚ) ^ k := by
    rw [zpow_add₀ (by norm_num)]
    apply mul_le_mul_of_nonneg_right _ hk.le
    rw [zpow_natCast]
    exact_mod_cast hl1
  have h2 : (m : ℚ) * (2 : ℚ) ^ k < (2 : ℚ) ^ ((Nat.log 2 m : ℤ) + k + 1) := by
    rw [show (Nat.log 2 m : ℤ) + k + 1 = ((Nat.log 2 m + 1 : ℕ) : ℤ) + k by push_cast; ring,
      zpow_add₀ (by norm_num)]
    apply mul_lt_mul_of_pos_right _ hk
    rw [zpow_natCast]
    exact_mod_cast hl2
  have hint : (m : ℚ) * (2 : ℚ) ^ k / (2 : ℚ) ^ ((Nat.log 2 m : ℤ) + k - 52) =
      (((m * 2 ^ (52 - Nat.log 2 m) : ℕ) : ℤ) : ℚ) := by
    have e1 : (Nat.log 2 m : ℤ) + k - 52 = k - ((52 - Nat.log 2 m : ℕ) : ℤ) := by omega
    rw [e1, zpow_sub₀ (by norm_num), zpow_natCast]
    push_cast
    field_simp
    ring
  rw [roundDouble_of_bounds _ _ h1 h2, hint, roundHalfEven_intCast, ← hint]
  field_simp

theorem roundDouble_natCast (n : ℕ) (hn : n < 2 ^ 53) : roundDouble (n : ℚ) = n := by
  have := roundDouble_exact n 0 hn
  simpa using this

/-- The quotient of a natural number below `2 ^ 53` by a positive natural number,
rounded to a double, has the floor and the ceiling of the exact quotient, when the
rounding error at the size of the quotient is below `1 / d`. -/
theorem floor_ceil_fdiv (t d : ℕ) (E : ℤ) (hd : 0 < d) (ht : t < 2 ^ 53)
    (hE1 : (t : ℚ) < (2 : ℚ) ^ (E + 1) * d) (hE2 : (2 : ℚ) ^ (E - 53) * d < 1) :
    ⌊fdiv (t : ℚ) (d : ℚ)⌋ = ((t / d : ℕ) : ℤ) ∧
      ⌈fdiv (t : ℚ) (d : ℚ)⌉ = (((t + d - 1) / d : ℕ) : ℤ) := by
  have hd' : (0 : ℚ) < d := by exact_mod_cast hd
  have hdiv : d * (t / d) + t % d = t := Nat.div_add_mod t d
  have hmod : t % d < d := Nat.mod_lt t hd
  have hx : (t : ℚ) / d = ((t / d : ℕ) : ℚ) + ((t % d : ℕ) : ℚ) * (d : ℚ)⁻¹ := by
    have : (t : ℚ) = (d : ℚ) * ((t / d : ℕ) : ℚ) + ((t % d : ℕ) : ℚ) := by
      exact_mod_cast hdiv.symm
    field_simp
    linarith
  unfold fdiv
  rcases Nat.eq_zero_or_pos (t % d) with h0 | hpos
  · have hk : t / d < 2 ^ 53 := lt_of_le_of_lt (Nat.div_le_self t d) ht
    rw [hx, h0]
    simp only [Nat.cast_zero, zero_mul, add_zero]
    rw [roundDouble_natCast _ hk]
    refine ⟨by simp, ?_⟩
    rw [show ((t / d : ℕ) : ℚ) = (((t / d : ℕ) : ℤ) : ℚ) by norm_cast, Int.ceil_intCast]
    congr 1
    symm
    apply Nat.div_eq_of_lt_le
    · have : t / d * d = t := by rw [Nat.mul_comm]; omega
      omega
    · have : t / d * d = t := by rw [Nat.mul_comm]; omega
      rw [Nat.add_mul, Nat.one_mul]
      omega
  · have hu : (0 : ℚ) < (d : ℚ)⁻¹ := inv_pos.2 hd'
    have hud : (d : ℚ) * (d : ℚ)⁻¹ = 1 := mul_inv_cancel₀ hd'.ne'
    have hr1 : (1 : ℚ) ≤ ((t % d : ℕ) : ℚ) := by exact_mod_cast hpos
    have hr2 : ((t % d : ℕ) : ℚ) ≤ (d : ℚ) - 1 := by
      have : t % d + 1 ≤ d := hmod
      have h : ((t % d + 1 : ℕ) : ℚ) ≤ (d : ℚ) := by exact_mod_cast this
      push_cast at h
      linarith
    have hlo : (d : ℚ)⁻¹ ≤ ((t % d : ℕ) : ℚ) * (d : ℚ)⁻¹ := by
      have := mul_le_mul_of_nonneg_right hr1 hu.le
      linarith
    have hhi : ((t % d : ℕ) : ℚ) * (d : ℚ)⁻¹ ≤ 1 - (d : ℚ)⁻¹ := by
      have := mul_le_mul_of_nonneg_right hr2 hu.le
      have e : ((d : ℚ) - 1) * (d : ℚ)⁻¹ = 1 - (d : ℚ)⁻¹ := by
        rw [sub_mul, hud, one_mul]
      linarith
    have hk0 : (0 : ℚ) ≤ ((t / d : ℕ) : ℚ) := Nat.cast_nonneg _
    have hxpos : (0 : ℚ) < (t : ℚ) / d := by rw [hx]; linarith
    have hxlt : (t : ℚ) / d < (2 : ℚ) ^ (E + 1) := by
      rw [div_lt_iff₀ hd']
      exact hE1
    have herr := roundDouble_error _ E hxpos hxlt
    have heps : (2 : ℚ) ^ (E - 53) < (d : ℚ)⁻¹ := by
      have h := mul_lt_mul_of_pos_right hE2 hu
      rw [mul_assoc, hud, mul_one, one_mul] at h
      exact h
    rw [abs_le] at herr
    have hdk : t / d * d + t % d = t := by rw [Nat.mul_comm]; exact hdiv
    have hk : (((t + d - 1) / d : ℕ)) = t / d + 1 := by
      apply Nat.div_eq_of_lt_le
      · simp only [Nat.add_mul, Nat.one_mul]
        omega
      · simp only [Nat.add_mul, Nat.one_mul]
        omega
    constructor
    · rw [Int.floor_eq_iff]
      simp only [Int.cast_natCast]
      constructor <;> linarith
    · rw [Int.ceil_eq_iff, hk]
      simp only [Int.cast_natCast, Nat.cast_add, Nat.cast_one, Int.cast_add, Int.cast_one]
      constructor <;> linarith

/-! ## `calculateNextTopicStart` in double arithmetic -/

namespace TimestampUtils

/-- Below `2 ^ 53` the double arithmetic of `calculateNextTopicStart` is exact: the
result is the one of the integer arithmetic. -/
theorem calculateNextTopicStart_double_eq (t : ℕ) (ht : t < 2 ^ 53) :
    Float64.calculateNextTopicStart (t : ℚ) = ((calculateNextTopicStart t : ℕ) : ℚ) := by
  have hceil := (floor_ceil_fdiv t 60 47 (by norm_num) ht
    (by
      have h : (t : ℚ) < 2 ^ 53 := by exact_mod_cast ht
      norm_num at h ⊢
      linarith)
    (by norm_num)).2
  simp only [Nat.cast_ofNat] at hceil
  have hc : (t + 60 - 1) / 60 = (t + 59) / 60 := by congr 1
  rw [hc] at hceil
  have h15 : 15 * ((t + 59) / 60) + 15 < 2 ^ 53 := by omega
  have hmul : roundDouble ((((t + 59) / 60 : ℕ) : ℚ) * 60) = (((t + 59) / 60 : ℕ) : ℚ) * 60 := by
    have := roundDouble_exact (15 * ((t + 59) / 60)) 2 (by omega)
    have e : ((15 * ((t + 59) / 60) : ℕ) : ℚ) * (2 : ℚ) ^ (2 : ℤ) =
        (((t + 59) / 60 : ℕ) : ℚ) * 60 := by
      push_cast
      norm_num
      ring
    rwa [e] at this
  have hadd : roundDouble ((((t + 59) / 60 : ℕ) : ℚ) * 60 + 60) =
      (((t + 59) / 60 : ℕ) : ℚ) * 60 + 60 := by
    have := roundDouble_exact (15 * ((t + 59) / 60) + 15) 2 h15
    have e : ((15 * ((t + 59) / 60) + 15 : ℕ) : ℚ) * (2 : ℚ) ^ (2 : ℤ) =
        (((t + 59) / 60 : ℕ) : ℚ) * 60 + 60 := by
      push_cast
      norm_num
      ring
    rwa [e] at this
  unfold Float64.calculateNextTopicStart calculateNextTopicStart fmul fadd
  simp only [hceil, TOPIC_INTERVAL, Int.cast_natCast, Nat.cast_ofNat]
  rw [hmul, hadd]
  push_cast
  rfl

/-- C10, as amended: for every non-negative integer `t` below `2 ^ 53` the result of
`calculateNextTopicStart`, computed in doubles, is `m + TOPIC_INTERVAL` where `m` is the
least multiple of 60 that is at least `t`; it is a multiple of 60 and lies in
`[t + 60, t + 120)`. -/
theorem calculateNextTopicStart_double (t : ℕ) (ht : t < 2 ^ 53) :
    (∃ m : ℕ, IsLeast {x : ℕ | 60 ∣ x ∧ t ≤ x} m ∧
      Float64.calculateNextTopicStart (t : ℚ) = ((m + TOPIC_INTERVAL : ℕ) : ℚ)) ∧
    TOPIC_INTERVAL = 60 ∧
    ∃ r : ℕ, Float64.calculateNextTopicStart (t : ℚ) = (r : ℚ) ∧
      60 ∣ r ∧ t + 60 ≤ r ∧ r < t + 120 := by
  obtain ⟨⟨m, hm, hr⟩, h60, hdvd, hlo, hhi⟩ := calculateNextTopicStart_spec t
  rw [calculateNextTopicStart_double_eq t ht]
  exact ⟨⟨m, hm, by rw [hr]⟩, h60, _, rfl, hdvd, hlo, hhi⟩

/-- The next start after 100 seconds is 180. -/
theorem calculateNextTopicStart_double_witness :
    100 < 2 ^ 53 ∧
    ∃ r : ℕ, Float64.calculateNextTopicStart ((100 : ℕ) : ℚ) = (r : ℚ) ∧
      60 ∣ r ∧ 100 + 60 ≤ r ∧ r < 100 + 120 :=
  ⟨by norm_num, (calculateNextTopicStart_double 100 (by norm_num)).2.2⟩

/-- C10, counterexample: for `t = 10 ^ 18`, a double, the quotient by 60 is rounded to
16666666666666666, its product by 60 is rounded back to `10 ^ 18` and so is the sum
with 60: the result is `t` itself, which is not a multiple of 60 and is below
`t + 60`. -/
theorem calculateNextTopicStart_double_counterexample :
    Float64.calculateNextTopicStart 1000000000000000000 = 1000000000000000000 ∧
    ¬ ((1000000000000000000 : ℚ) + 60 ≤
      Float64.calculateNextTopicStart 1000000000000000000) ∧
    (1000000000000000000 : ℕ) % 60 = 40 := by
  have h1 : fdiv 1000000000000000000 60 = 16666666666666666 := by
    unfold fdiv
    rw [roundDouble_eq _ 53 8333333333333333 (by norm_num) (by norm_num) (by norm_num)
      (by norm_num)]
    norm_num
  have h2 : fmul 16666666666666666 60 = 1000000000000000000 := by
    unfold fmul
    rw [roundDouble_eq _ 59 7812500000000000 (by norm_num) (by norm_num) (by norm_num)
      (by norm_num)]
    norm_num
  have h3 : fadd 1000000000000000000 60 = 1000000000000000000 := by
    unfold fadd
    rw [roundDouble_eq _ 59 7812500000000000 (by norm_num) (by norm_num) (by norm_num)
      (by norm_num)]
    norm_num
  have hceil : ⌈(16666666666666666 : ℚ)⌉ = 16666666666666666 := by
    rw [Int.ceil_eq_iff]
    norm_num
  have h : Float64.calculateNextTopicStart 1000000000000000000 = 1000000000000000000 := by
    unfold Float64.calculateNextTopicStart
    simp only [h1, hceil, TOPIC_INTERVAL]
    norm_num
    rw [h2, h3]
  refine ⟨h, ?_, by norm_num⟩
  rw [h]
  norm_num

end TimestampUtils

/-! ## `secondsToComponents` and `formatSimple` in double arithmetic -/

namespace TimestampUtils

theorem jsRem_natCast (s m : ℕ) (hm : 0 < m) :
    jsRem (s : ℚ) (m : ℚ) = ((s % m : ℕ) : ℚ) := by
  have hm' : (0 : ℚ) < m := by exact_mod_cast hm
  rw [jsRem_of_nonneg _ _ (Nat.cast_nonneg s) hm']
  unfold floorMod
  have hfl : ⌊(s : ℚ) / (m : ℚ)⌋ = ((s / m : ℕ) : ℤ) := by
    rw [Rat.floor_natCast_div_natCast]
    norm_cast
  have h : m * (s / m) + s % m = s := Nat.div_add_mod s m
  have h2 : (s : ℚ) = (m : ℚ) * ((s / m : ℕ) : ℚ) + ((s % m : ℕ) : ℚ) := by
    exact_mod_cast h.symm
  rw [hfl]
  simp only [Int.cast_natCast]
  linarith

/-- Below `2 ^ 53` the double arithmetic of `secondsToComponents` is exact on the
integers: the components are the quotients and remainders of the integer division. -/
theorem secondsToComponents_double_eq (s : ℕ) (hs : s < 2 ^ 53) :
    Float64.secondsToComponents (s : ℚ) =
      ⟨((s / 3600 : ℕ) : ℤ), ((s % 3600 / 60 : ℕ) : ℤ), ((s % 60 : ℕ) : ℤ), 0⟩ := by
  have hcast : (s : ℚ) < 2 ^ 53 := by exact_mod_cast hs
  have hh := (floor_ceil_fdiv s 3600 41 (by norm_num) hs
    (by norm_num at hcast ⊢; linarith) (by norm_num)).1
  have hr : ((s % 3600 : ℕ) : ℚ) < 3600 := by
    have : s % 3600 < 3600 := Nat.mod_lt _ (by norm_num)
    exact_mod_cast this
  have hm := (floor_ceil_fdiv (s % 3600) 60 47 (by norm_num) (by omega)
    (by norm_num at hr ⊢; linarith) (by norm_num)).1
  have j1 := jsRem_natCast s 3600 (by norm_num)
  have j2 := jsRem_natCast s 60 (by norm_num)
  have j3 := jsRem_natCast s 1 (by norm_num)
  simp only [Nat.cast_ofNat, Nat.cast_one, Nat.mod_one, Nat.cast_zero] at hh hm j1 j2 j3
  unfold Float64.secondsToComponents
  rw [j1, j2, j3, hh, hm]
  simp [fmul, roundDouble_zero]

/-- C12, as amended: for every non-negative integer number of seconds `s` below
`2 ^ 53` the components computed in doubles are `floor(s/3600)`,
`floor((s mod 3600)/60)`, `floor(s mod 60)` and `floor((s mod 1) * 1000)`, that is the
quotients and remainders of the integer division and 0 milliseconds; minutes and
seconds lie in `[0, 60)`, milliseconds in `[0, 1000)`, and
`hours*3600 + minutes*60 + seconds` is `s`. -/
theorem secondsToComponents_double (s : ℕ) (hs : s < 2 ^ 53) :
    (Float64.secondsToComponents (s : ℚ)).hours = ⌊(s : ℚ) / 3600⌋ ∧
    (Float64.secondsToComponents (s : ℚ)).minutes = ⌊floorMod (s : ℚ) 3600 / 60⌋ ∧
    (Float64.secondsToComponents (s : ℚ)).seconds = ⌊floorMod (s : ℚ) 60⌋ ∧
    (Float64.secondsToComponents (s : ℚ)).milliseconds = ⌊floorMod (s : ℚ) 1 * 1000⌋ ∧
    Float64.secondsToComponents (s : ℚ) =
      ⟨((s / 3600 : ℕ) : ℤ), ((s % 3600 / 60 : ℕ) : ℤ), ((s % 60 : ℕ) : ℤ), 0⟩ ∧
    0 ≤ (Float64.secondsToComponents (s : ℚ)).hours ∧
    0 ≤ (Float64.secondsToComponents (s : ℚ)).minutes ∧
    (Float64.secondsToComponents (s : ℚ)).minutes < 60 ∧
    0 ≤ (Float64.secondsToComponents (s : ℚ)).seconds ∧
    (Float64.secondsToComponents (s : ℚ)).seconds < 60 ∧
    0 ≤ (Float64.secondsToComponents (s : ℚ)).milliseconds ∧
    (Float64.secondsToComponents (s : ℚ)).milliseconds < 1000 ∧
    (Float64.secondsToComponents (s : ℚ)).hours * 3600 +
      (Float64.secondsToComponents (s : ℚ)).minutes * 60 +
      (Float64.secondsToComponents (s : ℚ)).seconds = (s : ℤ) := by
  have hd := secondsToComponents_double_eq s hs
  have hx : Float64.secondsToComponents (s : ℚ) = secondsToComponents (s : ℚ) := by
    rw [hd, secondsToComponents_natCast]
  obtain ⟨e1, e2, e3, e4, _, _, _, _, _, _, _, _, _⟩ :=
    secondsToComponents_spec (s : ℚ) (Nat.cast_nonneg s)
  refine ⟨by rw [hx, e1], by rw [hx, e2], by rw [hx, e3], by rw [hx, e4], hd, ?_, ?_, ?_, ?_,
    ?_, ?_, ?_, ?_⟩
  all_goals rw [hd]
  all_goals simp only
  all_goals omega

/-- The components of 7325 seconds. -/
theorem secondsToComponents_double_witness :
    7325 < 2 ^ 53 ∧
    Float64.secondsToComponents ((7325 : ℕ) : ℚ) = ⟨2, 2, 5, 0⟩ :=
  ⟨by norm_num, (secondsToComponents_double 7325 (by norm_num)).2.2.2.2.1⟩

/-- C12, counterexample: for the integer `2 ^ 64 - 4096`, a double, the quotient by
3600 is rounded up to an integer and the hours are one more than `floor(s/3600)`; for
the double nearest to 0.29 the product of the fraction by 1000 is rounded up to 290 and
the milliseconds are one more than `floor((s mod 1) * 1000)`. -/
theorem secondsToComponents_double_counterexample :
    (Float64.secondsToComponents 18446744073709547520).hours = 5124095576030430 ∧
    ⌊(18446744073709547520 : ℚ) / 3600⌋ = 5124095576030429 ∧
    (Float64.secondsToComponents (5224175567749775 / 18014398509481984)).milliseconds = 290 ∧
    ⌊floorMod (5224175567749775 / 18014398509481984) 1 * 1000⌋ = 289 := by
  have hfl : ⌊(5224175567749775 / 18014398509481984 : ℚ) / 1⌋ = 0 := by
    rw [Int.floor_eq_iff]
    norm_num
  refine ⟨?_, ?_, ?_, ?_⟩
  · unfold Float64.secondsToComponents fdiv
    simp only
    rw [roundDouble_eq _ 52 5124095576030430 (by norm_num) (by norm_num) (by norm_num)
      (by norm_num)]
    rw [Int.floor_eq_iff]
    norm_num
  · rw [Int.floor_eq_iff]
    norm_num
  · have hrem : jsRem (5224175567749775 / 18014398509481984) 1 =
        5224175567749775 / 18014398509481984 := by
      unfold jsRem
      rw [if_pos (by norm_num), hfl]
      norm_num
    unfold Float64.secondsToComponents fmul
    simp only [hrem]
    rw [roundDouble_eq _ 8 5101733952880640 (by norm_num) (by norm_num) (by norm_num)
      (by norm_num)]
    rw [Int.floor_eq_iff]
    norm_num
  · unfold floorMod
    rw [hfl, Int.floor_eq_iff]
    norm_num

theorem numToString_double (large : Int → Str) (n : ℕ) (hn : n < 2 ^ 53) :
    Float64.numToString large (n : ℤ) = Nat.toDigits 10 n := by
  unfold Float64.numToString
  rw [if_pos (by simpa using hn), numToString_natCast]

/-- Below `2 ^ 53` the double arithmetic of `formatSimple` is exact on the integers and
the numbers printed are in the range where `toString` gives the decimal notation. -/
theorem formatSimple_double_eq (large : Int → Str) (s : ℕ) (hs : s < 2 ^ 53) :
    Float64.formatSimple large (s : ℚ) = formatSimple (s : ℚ) := by
  have hnum : ∀ n : ℕ, n < 2 ^ 53 →
      Float64.numToString large (n : ℤ) = numToString (n : ℤ) := by
    intro n hn
    rw [numToString_double large n hn, numToString_natCast]
  unfold Float64.formatSimple formatSimple Float64.pad pad
  rw [secondsToComponents_double_eq s hs, secondsToComponents_natCast]
  simp only [hnum (s % 60) (by omega), hnum (s % 3600 / 60) (by omega),
    hnum (s / 3600) (by omega)]

/-- C13, as amended: for a whole number of seconds below `2 ^ 53`, `formatSimple`
computed in doubles gives "M:SS" below one hour, the minutes in decimal without padding
and the seconds with two digits, and "H:MM:SS" from one hour on, the hours in decimal
without padding and the minutes and the seconds with two digits each. -/
theorem formatSimple_double (large : Int → Str) (s : ℕ) (hs : s < 2 ^ 53) :
    Float64.formatSimple large (s : ℚ) =
      if s < 3600 then Nat.toDigits 10 (s / 60) ++ [':'] ++ twoDigits (s % 60)
      else Nat.toDigits 10 (s / 3600) ++ [':'] ++ twoDigits (s % 3600 / 60) ++ [':'] ++
        twoDigits (s % 60) := by
  rw [formatSimple_double_eq large s hs, formatSimple_spec]

/-- The short format of 7325 seconds is "2:02:05". -/
theorem formatSimple_double_witness :
    7325 < 2 ^ 53 ∧
    Float64.formatSimple (fun _ => []) ((7325 : ℕ) : ℚ) = ['2', ':', '0', '2', ':', '0', '5'] :=
  ⟨by norm_num, formatSimple_double (fun _ => []) 7325 (by norm_num)⟩

end TimestampUtils

namespace TimestampUtils

theorem secondsToComponents_double_large :
    Float64.secondsToComponents 18446744073709547520 = ⟨5124095576030430, 52, 0, 0⟩ := by
  have hq : ⌊(18446744073709547520 : ℚ) / 3600⌋ = 5124095576030429 := by
    rw [Int.floor_eq_iff]
    norm_num
  have hq60 : ⌊(18446744073709547520 : ℚ) / 60⌋ = 307445734561825792 := by
    rw [Int.floor_eq_iff]
    norm_num
  have hq1 : ⌊(18446744073709547520 : ℚ) / 1⌋ = 18446744073709547520 := by
    rw [Int.floor_eq_iff]
    norm_num
  have j1 : jsRem 18446744073709547520 3600 = 3120 := by
    unfold jsRem
    rw [if_pos (by norm_num), hq]
    norm_num
  have j2 : jsRem 18446744073709547520 60 = 0 := by
    unfold jsRem
    rw [if_pos (by norm_num), hq60]
    norm_num
  have j3 : jsRem 18446744073709547520 1 = 0 := by
    unfold jsRem
    rw [if_pos (by norm_num), hq1]
    norm_num
  have hh : ⌊fdiv 18446744073709547520 3600⌋ = 5124095576030430 := by
    unfold fdiv
    rw [roundDouble_eq _ 52 5124095576030430 (by norm_num) (by norm_num) (by norm_num)
      (by norm_num)]
    rw [Int.floor_eq_iff]
    norm_num
  have hm : ⌊fdiv 3120 60⌋ = 52 := by
    unfold fdiv
    rw [show (3120 : ℚ) / 60 = ((52 : ℕ) : ℚ) by norm_num, roundDouble_natCast 52 (by norm_num)]
    rw [Int.floor_eq_iff]
    norm_num
  unfold Float64.secondsToComponents
  rw [j1, j2, j3, hh, hm]
  simp [fmul, roundDouble_zero]

set_option maxRecDepth 100000

/-- C13, counterexample: for the integer `2 ^ 64 - 4096`, a double, the quotient by
3600 is rounded up to an integer and `formatSimple` prints the hours
5124095576030430, one more than the hours `floor(s/3600)` of the claim. -/
theorem formatSimple_double_counterexample :
    Float64.formatSimple (fun _ => []) 18446744073709547520 =
      "5124095576030430:52:00".toList ∧
    Nat.toDigits 10 (18446744073709547520 / 3600) ++ [':'] ++
        twoDigits (18446744073709547520 % 3600 / 60) ++ [':'] ++
        twoDigits (18446744073709547520 % 60) =
      "5124095576030429:52:00".toList ∧
    Float64.formatSimple (fun _ => []) 18446744073709547520 ≠
      Nat.toDigits 10 (18446744073709547520 / 3600) ++ [':'] ++
        twoDigits (18446744073709547520 % 3600 / 60) ++ [':'] ++
        twoDigits (18446744073709547520 % 60) := by
  have h : Float64.formatSimple (fun _ => []) 18446744073709547520 =
      "5124095576030430:52:00".toList := by
    unfold Float64.formatSimple
    rw [secondsToComponents_double_large]
    decide
  rw [h]
  decide

end TimestampUtils

end ScriptHelper
